import Mathlib

/-!
Verification of the xsynth voice management and rendering core.

This file embeds, in Lean, the parts of the source needed by the claims:

* src/core/src/voice/simdvoice.rs      (SIMDStereoVoice / SIMDMonoVoice render_to)
* src/core/src/channel/voice_buffer.rs (VoiceBuffer and its operations)
* src/core/src/channel/key.rs          (KeyData render_to and priority rendering)
* src/core/src/effects/limiter.rs      (SingleChannelLimiter limit)

Machine floats are embedded as rationals; u8 velocities as naturals with the
literal 255 for u8::MAX; usize counters as naturals.  Stateful Rust methods
become functions from state to state.  The SIMD generator of lane width W is
embedded as a deterministic stream g : pull index → lane index → value
together with a counter of pulls performed, which is faithful for any
deterministic generator.
-/

/-! ## SIMD voice renderers (src/core/src/voice/simdvoice.rs)

The mono renderer works elementwise on values of an arbitrary additive type α,
so the same definition covers SIMDMonoVoice (α = ℚ, one float per sample) and
the frame view of SIMDStereoVoice (α = ℚ × ℚ, one stereo frame per sample).
The interleaved stereo renderer on raw float buffers is defined separately
below, with Option capturing the unchecked accesses at buf_idx + 1.
-/

/-- State of a SIMD voice between render_to calls: the number of generator
pulls performed so far, the last pulled block (remainder), and remainder_pos.
A fresh voice has remainder_pos = W (remainder fully consumed). -/
structure SIMDVoiceState (α : Type) where
  pulls : ℕ
  remainder : ℕ → α
  remainderPos : ℕ

/-- Adds lane values lane k, lane (k+1), ... elementwise onto a list.  This is
the elementary buffer-add loop shared by all three phases of render_to. -/
def addLane {α : Type} [Add α] (lane : ℕ → α) : ℕ → List α → List α
  | _, [] => []
  | k, x :: rest => (x + lane k) :: addLane lane (k + 1) rest

/-- Phase 1 of render_to: the loop
`while buf_idx < buf_len && self.remainder_pos < width { buffer[buf_idx] += remainder[remainder_pos]; ... }`.
Returns the written prefix, the final remainder_pos, and the unprocessed rest. -/
def simdDrain {α : Type} [Add α] (W : ℕ) (rem : ℕ → α) (pos : ℕ) :
    List α → List α × ℕ × List α
  | [] => ([], pos, [])
  | x :: rest =>
    if pos < W then
      let r := simdDrain W rem (pos + 1) rest
      ((x + rem pos) :: r.1, r.2)
    else ([], pos, x :: rest)

/-- Phase 2 of render_to: the loop `while buf_idx + width <= buf_len { let sample = generator.next_sample(); ... }`.
Each iteration pulls one block and adds its W lanes onto the next W buffer
elements.  The fuel argument bounds the iteration count; simdRender passes the
buffer length, which suffices because every iteration consumes W ≥ 1 elements.
Returns the written prefix, the new pull count, and the unprocessed rest. -/
def simdBulk {α : Type} [Add α] (g : ℕ → ℕ → α) (W : ℕ) :
    ℕ → ℕ → List α → List α × ℕ × List α
  | 0, pulls, buf => ([], pulls, buf)
  | fuel + 1, pulls, buf =>
    if 0 < W ∧ W ≤ buf.length then
      let r := simdBulk g W fuel (pulls + 1) (buf.drop W)
      (addLane (g pulls) 0 (buf.take W) ++ r.1, r.2)
    else ([], pulls, buf)

/-- Phase 3 of render_to: if any samples remain, pull one final block into the
remainder, reset remainder_pos to 0, and drain what fits
(`while buf_idx < buf_len`), leaving remainder_pos at the number of lanes consumed. -/
def simdTail {α : Type} [Add α] (g : ℕ → ℕ → α) (pulls : ℕ) (rem : ℕ → α)
    (pos : ℕ) (buf : List α) : List α × SIMDVoiceState α :=
  match buf with
  | [] => ([], ⟨pulls, rem, pos⟩)
  | _ :: _ => (addLane (g pulls) 0 buf, ⟨pulls + 1, g pulls, buf.length⟩)

/-- SIMDMonoVoice::render_to (and, at α = ℚ × ℚ, the frame view of
SIMDStereoVoice::render_to): drain the remainder, bulk-pull full blocks, then
pull one final block for the tail.  Returns the updated buffer and state. -/
def renderTo {α : Type} [Add α] (W : ℕ) (g : ℕ → ℕ → α) (st : SIMDVoiceState α)
    (buf : List α) : List α × SIMDVoiceState α :=
  let d := simdDrain W st.remainder st.remainderPos buf
  let b := simdBulk g W d.2.2.length st.pulls d.2.2
  let t := simdTail g b.2.1 st.remainder d.2.1 b.2.2
  (d.1 ++ b.1 ++ t.1, t.2)

/-- Sequence of render_to calls on successive buffers, threading the state. -/
def renderToSeq {α : Type} [Add α] (W : ℕ) (g : ℕ → ℕ → α)
    (st : SIMDVoiceState α) : List (List α) → List (List α) × SIMDVoiceState α
  | [] => ([], st)
  | b :: bs =>
    let r := renderTo W g st b
    let rs := renderToSeq W g r.2 bs
    (r.1 :: rs.1, rs.2)

/-- The output stream a SIMD voice in state st will produce from now on:
first the unconsumed remainder lanes, then the lanes of successive pulls. -/
def streamOf {α : Type} (W : ℕ) (g : ℕ → ℕ → α) (st : SIMDVoiceState α)
    (n : ℕ) : α :=
  if n < W - st.remainderPos then st.remainder (st.remainderPos + n)
  else g (st.pulls + (n - (W - st.remainderPos)) / W)
    ((n - (W - st.remainderPos)) % W)

/-! ### Interleaved stereo renderer

SIMDStereoVoice::render_to works on an interleaved [L0,R0,L1,R1,...] float
buffer and accesses buffer[buf_idx] and buffer[buf_idx + 1] with
get_unchecked.  The embedding returns none exactly when an access would fall
outside the buffer (which the unsafe source would perform anyway). -/

/-- State of a stereo SIMD voice: pull count, left and right remainder lanes,
and remainder_pos. -/
structure StereoVoiceState where
  pulls : ℕ
  remL : ℕ → ℚ
  remR : ℕ → ℚ
  remainderPos : ℕ

/-- Stereo drain loop: consumes remainder lanes two buffer floats at a time.
A lone trailing float while a lane is pending means the buffer[buf_idx + 1]
access is out of bounds. -/
def stereoDrain (W : ℕ) (remL remR : ℕ → ℚ) (pos : ℕ) :
    List ℚ → Option (List ℚ × ℕ × List ℚ)
  | [] => some ([], pos, [])
  | x :: rest =>
    if pos < W then
      match rest with
      | [] => none
      | y :: rest2 =>
        match stereoDrain W remL remR (pos + 1) rest2 with
        | none => none
        | some r => some ((x + remL pos) :: (y + remR pos) :: r.1, r.2)
    else some ([], pos, x :: rest)

/-- Inner loop of the stereo bulk phase: `for i in 0..width { buf[2*i] += L[i]; buf[2*i+1] += R[i] }`,
written as recursion over pairs.  The chunk it is applied to always has the
even length 2 * W, so the lone-element case never arises there. -/
def stereoChunkAdd (lane : ℕ → ℚ × ℚ) : ℕ → List ℚ → List ℚ
  | k, x :: y :: rest =>
    (x + (lane k).1) :: (y + (lane k).2) :: stereoChunkAdd lane (k + 1) rest
  | _, l => l

/-- Stereo bulk phase: `while buf_idx + samples_per_batch <= buf_len` with
samples_per_batch = 2 * W; each iteration pulls one block and interleaves its
lanes onto the next 2 * W floats.  Fuel as in simdBulk. -/
def stereoBulk (g : ℕ → ℕ → ℚ × ℚ) (W : ℕ) :
    ℕ → ℕ → List ℚ → List ℚ × ℕ × List ℚ
  | 0, pulls, buf => ([], pulls, buf)
  | fuel + 1, pulls, buf =>
    if 0 < W ∧ 2 * W ≤ buf.length then
      let r := stereoBulk g W fuel (pulls + 1) (buf.drop (2 * W))
      (stereoChunkAdd (g pulls) 0 (buf.take (2 * W)) ++ r.1, r.2)
    else ([], pulls, buf)

/-- Stereo tail drain loop: `while buf_idx < buf_len` writing pairs; a lone
trailing float makes the buffer[buf_idx + 1] access out of bounds. -/
def stereoTailLoop (lane : ℕ → ℚ × ℚ) : ℕ → List ℚ → Option (List ℚ × ℕ)
  | pos, [] => some ([], pos)
  | pos, x :: rest =>
    match rest with
    | [] => none
    | y :: rest2 =>
      match stereoTailLoop lane (pos + 1) rest2 with
      | none => none
      | some r => some ((x + (lane pos).1) :: (y + (lane pos).2) :: r.1, r.2)

/-- Stereo tail phase: pull one final block into the remainder, reset
remainder_pos to 0 and drain what fits. -/
def stereoTail (g : ℕ → ℕ → ℚ × ℚ) (pulls : ℕ) (remL remR : ℕ → ℚ)
    (pos : ℕ) (buf : List ℚ) : Option (List ℚ × StereoVoiceState) :=
  match buf with
  | [] => some ([], ⟨pulls, remL, remR, pos⟩)
  | _ :: _ =>
    match stereoTailLoop (g pulls) 0 buf with
    | none => none
    | some r =>
      some (r.1, ⟨pulls + 1, fun i => (g pulls i).1, fun i => (g pulls i).2, r.2⟩)

/-- SIMDStereoVoice::render_to on the interleaved float buffer.  Returns none
exactly when some get_unchecked access falls outside the buffer. -/
def stereoRenderTo (W : ℕ) (g : ℕ → ℕ → ℚ × ℚ) (st : StereoVoiceState)
    (buf : List ℚ) : Option (List ℚ × StereoVoiceState) :=
  match stereoDrain W st.remL st.remR st.remainderPos buf with
  | none => none
  | some d =>
    let b := stereoBulk g W d.2.2.length st.pulls d.2.2
    match stereoTail g b.2.1 st.remL st.remR d.2.1 b.2.2 with
    | none => none
    | some t => some (d.1 ++ b.1 ++ t.1, t.2)

/-- Sequence of stereo render_to calls, threading the state; none if any call
goes out of bounds. -/
def stereoRenderToSeq (W : ℕ) (g : ℕ → ℕ → ℚ × ℚ) (st : StereoVoiceState) :
    List (List ℚ) → Option (List (List ℚ) × StereoVoiceState)
  | [] => some ([], st)
  | b :: bs =>
    match stereoRenderTo W g st b with
    | none => none
    | some r =>
      match stereoRenderToSeq W g r.2 bs with
      | none => none
      | some rs => some (r.1 :: rs.1, rs.2)

/-- Interleaves a list of stereo frames into the raw float buffer layout. -/
def interleave : List (ℚ × ℚ) → List ℚ
  | [] => []
  | p :: rest => p.1 :: p.2 :: interleave rest

/-- Groups an interleaved float buffer into stereo frames (inverse of
interleave on even-length buffers). -/
def pairUp : List ℚ → List (ℚ × ℚ)
  | x :: y :: rest => (x, y) :: pairUp rest
  | _ => []

/-- View of a stereo voice state as a frame-valued SIMD voice state. -/
def StereoVoiceState.toPair (st : StereoVoiceState) : SIMDVoiceState (ℚ × ℚ) :=
  ⟨st.pulls, fun i => (st.remL i, st.remR i), st.remainderPos⟩

/-! ## VoiceBuffer (src/core/src/channel/voice_buffer.rs)

Voices live behind a trait object; the buffer logic reads only their id,
velocity and the is_releasing / is_killed / ended flags, and signals releases.
A voice is embedded as that observable record.  The effect of signal_release
on the flags is not part of src (the envelope lives in the voice
implementation), so it is modelled from the spec.
-/

/-- The two release kinds of the engine. -/
inductive ReleaseType where
  | Standard : ReleaseType
  | Kill : ReleaseType
deriving DecidableEq

/-- Observable state of one buffered voice: its group id and the data the
buffer logic reads.  push_voices overwrites the id field of incoming voices
with the freshly assigned group id. -/
structure BufVoice where
  id : ℕ
  velocity : ℕ
  releasing : Bool
  killed : Bool
  ended : Bool
deriving DecidableEq

/-- Modelled from the spec: the effect of Voice::signal_release on the
is_releasing and is_killed flags (the envelope implementation is outside the
sources).  Standard starts the natural release; Kill forces the accelerated
fade-out counted as killed.  Both flags are monotone per the spec. -/
def signalRelease : ReleaseType → BufVoice → BufVoice
  | ReleaseType.Standard, v => { v with releasing := true }
  | ReleaseType.Kill, v => { v with releasing := true, killed := true }

/-- ChannelInitOptions fields read by the embedded components. -/
structure ChannelInitOptions where
  fade_out_killing : Bool
  max_voices_per_frame : ℕ
deriving DecidableEq

/-- VoiceBuffer state: options, id_counter, the voice list in insertion
order, the damper flag and the held_by_damper id list. -/
structure VoiceBuffer where
  options : ChannelInitOptions
  id_counter : ℕ
  buffer : List BufVoice
  damper_held : Bool
  held_by_damper : List ℕ
deriving DecidableEq

/-- VoiceBuffer::new. -/
def VoiceBuffer.new (options : ChannelInitOptions) : VoiceBuffer :=
  ⟨options, 0, [], false, []⟩

/-- VoiceBuffer::get_id: increments id_counter and returns the new value. -/
def VoiceBuffer.get_id (vb : VoiceBuffer) : VoiceBuffer × ℕ :=
  ({ vb with id_counter := vb.id_counter + 1 }, vb.id_counter + 1)

/-- Contents of the HashMap entry for a group id built by
pop_quietest_voice_group: the velocity of the first voice with that id that
is not the ignored group and not killed, if any, as in
`id_groups.entry(voice.id).or_insert_with(|| (voice.velocity(), ...))`
over the scan that skips ignored and killed voices. -/
def mapVel (ignored : ℕ) (buffer : List BufVoice) (id : ℕ) : Option ℕ :=
  ((buffer.filter (fun v => v.id ≠ ignored ∧ ¬v.killed = true)).find?
    (fun v => v.id = id)).map (fun v => v.velocity)

/-- The HashMap minimum scan `for (id, (vel, _)) in &id_groups { if *vel < quietest_vel { ... } }`:
order is the iteration order of the map, best starts at u8::MAX = 255 with no
id selected.  Ids absent from the map are given velocity 255 so that they are
never selected; over orders that enumerate exactly the map keys this is the
source scan verbatim. -/
def selectQuietest (vels : ℕ → ℕ) : List ℕ → ℕ → Option ℕ → Option ℕ
  | [], _, best => best
  | id :: rest, bestVel, best =>
    if vels id < bestVel then selectQuietest vels rest (vels id) (some id)
    else selectQuietest vels rest bestVel best

/-- The group id pop_quietest_voice_group ends up selecting, given the
iteration order of the id HashMap. -/
def popSelection (order : List ℕ) (ignored : ℕ) (vb : VoiceBuffer) : Option ℕ :=
  selectQuietest (fun id => (mapVel ignored vb.buffer id).getD 255) order 255 none

/-- Removes the first occurrence of an id, as
`if let Some(index) = held_by_damper.iter().position(|&x| x == id) { held_by_damper.remove(index) }`. -/
def removeFirst (id : ℕ) : List ℕ → List ℕ
  | [] => []
  | x :: rest => if x = id then rest else x :: removeFirst id rest

/-- VoiceBuffer::pop_quietest_voice_group, parameterized by the iteration
order of the id HashMap (std HashMap iteration order is unspecified; any
enumeration of the keys can occur).  If a quietest group was found it is
either Kill-released in place (fade_out_killing) or dropped, and its id is
removed from held_by_damper. -/
def VoiceBuffer.pop_quietest_voice_group (order : List ℕ) (ignored_id : ℕ)
    (vb : VoiceBuffer) : VoiceBuffer :=
  if vb.buffer = [] then vb
  else
    match popSelection order ignored_id vb with
    | none => vb
    | some id =>
      let buffer :=
        if vb.options.fade_out_killing then
          vb.buffer.map (fun v => if v.id = id then signalRelease ReleaseType.Kill v else v)
        else
          vb.buffer.filter (fun v => v.id ≠ id)
      { vb with buffer := buffer, held_by_damper := removeFirst id vb.held_by_damper }

/-- VoiceBuffer::kill_all_voices: with fade_out_killing every voice receives a
Kill release and id_counter is reset to 0; otherwise the buffer is cleared.
Neither branch touches held_by_damper. -/
def VoiceBuffer.kill_all_voices (vb : VoiceBuffer) : VoiceBuffer :=
  if vb.options.fade_out_killing then
    { vb with buffer := vb.buffer.map (signalRelease ReleaseType.Kill),
              id_counter := 0 }
  else
    { vb with buffer := [] }

/-- VoiceBuffer::get_active_count: number of buffered voices that are not killed. -/
def VoiceBuffer.get_active_count (vb : VoiceBuffer) : ℕ :=
  (vb.buffer.filter (fun v => ¬v.killed = true)).length

/-- The trimming loop of push_voices
(`while count > max_voices { self.pop_quietest_voice_group(id) }` where count
is get_active_count under fade_out_killing and the raw length otherwise).
Each iteration may see a different HashMap order, hence orders is indexed by
the remaining fuel; fuel bounds the number of iterations of the source loop. -/
def stealLoop (orders : ℕ → List ℕ) : ℕ → ℕ → ℕ → VoiceBuffer → VoiceBuffer
  | 0, _, _, vb => vb
  | fuel + 1, max_voices, ignored, vb =>
    let count := if vb.options.fade_out_killing then vb.get_active_count
                 else vb.buffer.length
    if max_voices < count then
      stealLoop orders fuel max_voices ignored
        (vb.pop_quietest_voice_group (orders fuel) ignored)
    else vb

/-- VoiceBuffer::push_voices: assigns a fresh group id, appends all produced
voices with that id, then if max_voices is set trims with the just-pushed id
immune.  The fuel passed to the trimming loop is the buffer length after the
append. -/
def VoiceBuffer.push_voices (orders : ℕ → List ℕ) (vb : VoiceBuffer)
    (voices : List BufVoice) (max_voices : Option ℕ) : VoiceBuffer :=
  let r := vb.get_id
  let vb1 := { r.1 with buffer := r.1.buffer ++ voices.map (fun v => { v with id := r.2 }) }
  match max_voices with
  | none => vb1
  | some mv => stealLoop orders vb1.buffer.length mv r.2 vb1

/-- A voice is eligible for release when it is neither releasing nor killed
(the `if voice.is_releasing() || voice.is_killed() { continue }` filter). -/
def eligibleV (v : BufVoice) : Bool := !v.releasing && !v.killed

/-- The damper-released walk of release_next_voice: skip ineligible voices;
at the first eligible voice record its id and velocity; release every voice
with that id, still skipping ineligible ones; stop at an eligible voice with
a different id.  The accumulators mirror the mutable id and vel options. -/
def releaseWalk : List BufVoice → Option ℕ → Option ℕ → List BufVoice × Option ℕ
  | [], _, vel => ([], vel)
  | v :: rest, id0, vel0 =>
    if v.releasing = true ∨ v.killed = true then
      let r := releaseWalk rest id0 vel0
      (v :: r.1, r.2)
    else
      let id1 := match id0 with | none => some v.id | some i => some i
      let vel1 := match id0 with | none => some v.velocity | some _ => vel0
      if id1 ≠ some v.id then (v :: rest, vel1)
      else
        let r := releaseWalk rest id1 vel1
        (signalRelease ReleaseType.Standard v :: r.1, r.2)

/-- The damper-held walk of release_next_voice: find the first voice that is
neither releasing nor killed nor already held, and push its id onto
held_by_damper. -/
def damperWalk (held : List ℕ) : List BufVoice → List ℕ
  | [] => held
  | v :: rest =>
    if v.releasing = true ∨ v.killed = true then damperWalk held rest
    else if v.id ∈ held then damperWalk held rest
    else held ++ [v.id]

/-- VoiceBuffer::release_next_voice. -/
def VoiceBuffer.release_next_voice (vb : VoiceBuffer) : VoiceBuffer × Option ℕ :=
  if vb.damper_held = false then
    let r := releaseWalk vb.buffer none none
    ({ vb with buffer := r.1 }, r.2)
  else
    ({ vb with held_by_damper := damperWalk vb.held_by_damper vb.buffer }, none)

/-- VoiceBuffer::remove_ended_voices: collect the ids of ended voices, remove
each collected id (first occurrence, once per ended voice) from
held_by_damper, then drop the ended voices from the buffer. -/
def VoiceBuffer.remove_ended_voices (vb : VoiceBuffer) : VoiceBuffer :=
  let ended_ids := (vb.buffer.filter (fun v => v.ended = true)).map (fun v => v.id)
  { vb with
    held_by_damper := ended_ids.foldl (fun held id => removeFirst id held) vb.held_by_damper,
    buffer := vb.buffer.filter (fun v => ¬v.ended = true) }

/-- VoiceBuffer::set_damper: on a held-to-released transition, Standard
release every voice whose group id is held by the damper and clear the set;
always store the new damper state. -/
def VoiceBuffer.set_damper (vb : VoiceBuffer) (damper : Bool) : VoiceBuffer :=
  if vb.damper_held = true ∧ damper = false then
    { vb with
      buffer := vb.buffer.map (fun v =>
        if v.id ∈ vb.held_by_damper then signalRelease ReleaseType.Standard v else v),
      held_by_damper := [],
      damper_held := damper }
  else
    { vb with damper_held := damper }

/-- VoiceBuffer::voice_count. -/
def VoiceBuffer.voice_count (vb : VoiceBuffer) : ℕ := vb.buffer.length

/-! ## KeyData rendering (src/core/src/channel/key.rs)

For the rendering claims only the per-tick render path matters.  A voice is
viewed through what KeyData::render_to reads from it this tick: its amplitude,
its additive contribution to the output buffer (render_to), and the ended flag
it reports afterwards. -/

/-- Amplitude threshold below which voices are considered silent. -/
def SILENCE_THRESHOLD : ℚ := 1 / 1000

/-- A voice as seen by KeyData::render_to during one tick. -/
structure KVoice where
  amplitude : ℚ
  render : List ℚ → List ℚ
  ended : Bool

/-- KeyData state: the buffered voices in insertion order, last_voice_count,
the shared polyphony counter, and the max_voices_per_frame cap. -/
structure KeyData where
  voices : List KVoice
  last_voice_count : ℕ
  shared_voice_counter : ℤ
  max_voices_per_frame : ℕ

/-- KeyData::update_voice_counter: applies the signed delta between new_count
and last_voice_count to the shared counter. -/
def KeyData.update_voice_counter (kd : KeyData) (new_count : ℕ) : KeyData :=
  { kd with
    shared_voice_counter :=
      kd.shared_voice_counter + ((new_count : ℤ) - (kd.last_voice_count : ℤ)),
    last_voice_count := new_count }

/-- KeyData::render_with_priority: collect (index, amplitude) for voices above
the silence threshold, stable-sort descending by amplitude
(`sort_by(|a, b| b.1.partial_cmp(&a.1))`), keep the top
min(len, max_voices_per_frame) indices, and render exactly those voices in
buffer order. -/
def KeyData.render_with_priority (kd : KeyData) (out : List ℚ) : List ℚ :=
  let voice_data := (kd.voices.enum.map (fun p => (p.1, p.2.amplitude))).filter
    (fun p => SILENCE_THRESHOLD < p.2)
  if voice_data = [] then out
  else
    let sorted := voice_data.mergeSort (fun a b => decide (b.2 ≤ a.2))
    let render_count := min voice_data.length kd.max_voices_per_frame
    let indices_to_render := (sorted.take render_count).map (fun p => p.1)
    kd.voices.enum.foldl
      (fun acc p => if indices_to_render.contains p.1 then p.2.render acc else acc) out

/-- KeyData::render_to: with no voices only the counter is updated; with at
most max_voices_per_frame voices all of them render; otherwise only the
loudest render via render_with_priority.  Ended voices are then reaped and
the shared counter updated. -/
def KeyData.render_to (kd : KeyData) (out : List ℚ) : KeyData × List ℚ :=
  let voice_count := kd.voices.length
  if voice_count = 0 then (kd.update_voice_counter 0, out)
  else
    let out2 :=
      if voice_count ≤ kd.max_voices_per_frame then
        kd.voices.foldl (fun acc v => v.render acc) out
      else kd.render_with_priority out
    let kd2 := { kd with voices := kd.voices.filter (fun v => ¬v.ended = true) }
    (kd2.update_voice_counter kd2.voices.length, out2)

/-! ## Volume limiter (src/core/src/effects/limiter.rs) -/

/-- SingleChannelLimiter state. -/
structure SingleChannelLimiter where
  loudness : ℚ
  attack : ℚ
  falloff : ℚ
  strength : ℚ
  min_thresh : ℚ
  max_output : ℚ

/-- SingleChannelLimiter::new with the default constants. -/
def SingleChannelLimiter.new : SingleChannelLimiter :=
  ⟨1, 100, 16000, 1, 1 / 10, 95 / 100⟩

/-- The f32 signum as used on the non-NaN soft-clip path: 1 for non-negative
values, -1 for negative ones. -/
def rsignum (x : ℚ) : ℚ := if x < 0 then -1 else 1

/-- The clamp(lo, hi) of the Rust standard library on ordered rationals. -/
def rclamp (x lo hi : ℚ) : ℚ := if x < lo then lo else if hi < x then hi else x

/-- SingleChannelLimiter::limit: envelope follower, gain reduction, soft knee
above max_output, then the final hard clamp to [-0.99, 0.99].  Returns the
updated state and the output sample. -/
def SingleChannelLimiter.limit (st : SingleChannelLimiter) (val : ℚ) :
    SingleChannelLimiter × ℚ :=
  let a := |val|
  let loudness :=
    if a < st.loudness then (st.loudness * st.falloff + a) / (st.falloff + 1)
    else (st.loudness * st.attack + a) / (st.attack + 1)
  let effective_loudness := max loudness st.min_thresh
  let gain_reduction := 1 / (1 + max (effective_loudness - 1) 0 * st.strength)
  let limited := val * gain_reduction
  let soft_clipped :=
    if st.max_output < |limited| then
      let sign := rsignum limited
      let excess := |limited| - st.max_output
      sign * (st.max_output + excess / (1 + excess * 2))
    else limited
  ({ st with loudness := loudness }, rclamp soft_clipped (-(99 / 100)) (99 / 100))

/-! ## Specification-side definitions

These definitions follow the wording of the claims, for comparison with the
source embeddings above. -/

/-- Amended release behaviour: starting from the buffer head, skip releasing
or killed voices; Standard-release every voice of group G; stop at the first
voice that is neither releasing nor killed and has a different group id. -/
def releaseRun (G : ℕ) : List BufVoice → List BufVoice
  | [] => []
  | v :: rest =>
    if eligibleV v then
      if v.id = G then signalRelease ReleaseType.Standard v :: releaseRun G rest
      else v :: rest
    else v :: releaseRun G rest

/-- Claim C4 as written, damper released: find the first non-releasing,
non-killed voice, signal Standard on it and on every consecutive following
voice with the same group id, and stop the walk as soon as a voice with a
different group id is encountered (of any flag state). -/
def releaseRunClaim (G : ℕ) : List BufVoice → List BufVoice
  | [] => []
  | v :: rest =>
    if v.id = G then signalRelease ReleaseType.Standard v :: releaseRunClaim G rest
    else v :: rest

/-- Claim C4 as written, the full damper-released walk: the prefix before the
first eligible voice is kept, then releaseRunClaim runs from that voice. -/
def releaseClaimWalk : List BufVoice → List BufVoice × Option ℕ
  | [] => ([], none)
  | v :: rest =>
    if eligibleV v then
      (signalRelease ReleaseType.Standard v :: releaseRunClaim v.id rest, some v.velocity)
    else
      let r := releaseClaimWalk rest
      (v :: r.1, r.2)

/-! ## Concrete states used in the analyses -/

/-- A fresh, never-released attack voice of velocity 100 (the id field is
overwritten by push_voices). -/
def freshVoice : BufVoice := ⟨0, 100, false, false, false⟩

/-- The buffer state reached by pushing one five-voice group into an empty
buffer with fade_out_killing disabled: five voices of the same fresh group. -/
def vbStuck : VoiceBuffer :=
  (VoiceBuffer.new ⟨false, 1⟩).push_voices (fun _ => [])
    [freshVoice, freshVoice, freshVoice, freshVoice, freshVoice] none

/-- Two single-voice groups with equal velocity 10 (a tie), nothing ignored,
fade_out_killing disabled. -/
def vbTie : VoiceBuffer :=
  ⟨⟨false, 1⟩, 2, [⟨1, 10, false, false, false⟩, ⟨2, 10, false, false, false⟩], false, []⟩

/-- One single-voice group of velocity u8::MAX = 255, fade_out_killing
disabled. -/
def vbMaxVel : VoiceBuffer :=
  ⟨⟨false, 1⟩, 1, [⟨1, 255, false, false, false⟩], false, []⟩

/-- A buffer where group 1 is split around a killed voice of group 2: the
insertion-order contiguity of groups does not hold for it. -/
def vbSplit : VoiceBuffer :=
  ⟨⟨false, 1⟩, 2,
    [⟨1, 10, false, false, false⟩, ⟨2, 20, false, true, false⟩, ⟨1, 30, false, false, false⟩],
    false, []⟩

/-! ## Theorems -/

/-- Helper: rclamp stays within its bounds when they are ordered. -/
theorem rclamp_mem_Icc (x lo hi : ℚ) (h : lo ≤ hi) :
    lo ≤ rclamp x lo hi ∧ rclamp x lo hi ≤ hi := by
  unfold rclamp
  split_ifs with h1 h2
  · exact ⟨le_refl lo, h⟩
  · exact ⟨h, le_refl hi⟩
  · exact ⟨le_of_not_lt h1, le_of_not_lt h2⟩

/-- C9: for every input sample value and every limiter state, the value
returned by SingleChannelLimiter::limit lies within [-0.99, 0.99]. -/
theorem limiter_limit_within_bounds (st : SingleChannelLimiter) (val : ℚ) :
    -(99 / 100) ≤ (st.limit val).2 ∧ (st.limit val).2 ≤ 99 / 100 :=
  rclamp_mem_Icc _ _ _ (by norm_num)

/-- Witness: the limiter bound at the default state on the over-range input 2. -/
theorem limiter_limit_within_bounds_witness :
    -(99 / 100) ≤ (SingleChannelLimiter.new.limit 2).2 ∧
      (SingleChannelLimiter.new.limit 2).2 ≤ 99 / 100 :=
  limiter_limit_within_bounds SingleChannelLimiter.new 2

/-- C6: kill_all_voices does not clear held_by_damper in either branch.  With
fade_out_killing disabled the buffer is cleared while held_by_damper keeps the
group id 1, so held_by_damper is not a subset of the buffered group ids; with
fade_out_killing enabled held_by_damper is also left intact.  The state is
reached by set_damper(true), a one-voice note-on, and a note-off. -/
theorem kill_all_voices_leaves_stale_held_by_damper :
    (((((VoiceBuffer.new ⟨false, 1⟩).set_damper true).push_voices (fun _ => [])
        [freshVoice] none).release_next_voice).1.kill_all_voices).buffer = [] ∧
    (((((VoiceBuffer.new ⟨false, 1⟩).set_damper true).push_voices (fun _ => [])
        [freshVoice] none).release_next_voice).1.kill_all_voices).held_by_damper = [1] ∧
    (((((VoiceBuffer.new ⟨true, 1⟩).set_damper true).push_voices (fun _ => [])
        [freshVoice] none).release_next_voice).1.kill_all_voices).held_by_damper = [1] := by
  decide

/-- C7: the fade_out_killing branch of kill_all_voices resets id_counter to 0,
so id_counter is not strictly increasing across operations, and the next
push_voices reassigns the already-used group id 1 while the killed voice of
the first group with id 1 is still in the buffer. -/
theorem kill_all_voices_resets_id_counter_and_reuses_ids :
    ((VoiceBuffer.new ⟨true, 64⟩).push_voices (fun _ => []) [freshVoice] none).id_counter = 1 ∧
    (((VoiceBuffer.new ⟨true, 64⟩).push_voices (fun _ => [])
        [freshVoice] none).kill_all_voices).id_counter = 0 ∧
    ((((VoiceBuffer.new ⟨true, 64⟩).push_voices (fun _ => [])
        [freshVoice] none).kill_all_voices).push_voices (fun _ => [])
        [freshVoice] none).buffer.map (fun v => v.id) = [1, 1] := by
  decide

/-- Helper: the HashMap minimum scan selects nothing when no visited id has a
velocity below the running best. -/
theorem selectQuietest_eq_none (vels : ℕ → ℕ) (order : List ℕ) (best : ℕ)
    (h : ∀ id ∈ order, ¬ vels id < best) :
    selectQuietest vels order best none = none := by
  induction order with
  | nil => rfl
  | cons a rest ih =>
    unfold selectQuietest
    rw [if_neg (h a (List.mem_cons_self a rest))]
    exact ih fun id hid => h id (List.mem_cons_of_mem a hid)

/-- Helper: every voice of vbStuck belongs to the just-pushed (ignored) group
1, so the steal scan has no candidate and pop_quietest_voice_group is the
identity, for every HashMap iteration order. -/
theorem pop_quietest_vbStuck (order : List ℕ) :
    vbStuck.pop_quietest_voice_group order 1 = vbStuck := by
  have hv : ∀ id, mapVel 1 vbStuck.buffer id = none := fun _ => rfl
  have hsel : popSelection order 1 vbStuck = none := by
    refine selectQuietest_eq_none _ order 255 fun id _ => ?_
    rw [hv id]
    simp
  unfold VoiceBuffer.pop_quietest_voice_group
  rw [if_neg (by decide), hsel]

/-- C3: the trimming loop of push_voices does not terminate when the immune
just-pushed group alone exceeds max_voices.  After pushing a five-voice group
into an empty buffer with max_voices = 4, every iteration of
`while buffer.len() > max_voices { pop_quietest_voice_group(id) }` leaves the
buffer unchanged (there is no stealable group) while the loop condition stays
true, for every iteration count and every sequence of HashMap orders: the
source loop runs forever. -/
theorem push_voices_steal_loop_diverges (fuel : ℕ) (orders : ℕ → List ℕ) :
    stealLoop orders fuel 4 1 vbStuck = vbStuck ∧ 4 < vbStuck.buffer.length := by
  refine ⟨?_, by decide⟩
  induction fuel with
  | zero => rfl
  | succ n ih =>
    have step : stealLoop orders (n + 1) 4 1 vbStuck =
        stealLoop orders n 4 1 (vbStuck.pop_quietest_voice_group (orders n) 1) := rfl
    rw [step, pop_quietest_vbStuck]
    exact ih

/-- Witness: the diverging steal loop evaluated at fuel 3 with empty orders. -/
theorem push_voices_steal_loop_diverges_witness :
    stealLoop (fun _ => []) 3 4 1 vbStuck = vbStuck ∧ 4 < vbStuck.buffer.length :=
  push_voices_steal_loop_diverges 3 (fun _ => [])

/-- Helper: invariant of the HashMap minimum scan of pop_quietest_voice_group.
If the accumulator is consistent (a selected id always carries its velocity as
the running best), then a returned id beats the accumulator and every visited
id, and an empty result means nothing beat the accumulator. -/
theorem selectQuietest_invariant (vels : ℕ → ℕ) (order : List ℕ) :
    ∀ (bestVel : ℕ) (best : Option ℕ), (∀ i, best = some i → vels i = bestVel) →
      (∀ id, selectQuietest vels order bestVel best = some id →
          vels id ≤ bestVel ∧ ((id ∈ order ∧ vels id < bestVel) ∨ best = some id) ∧
          ∀ j ∈ order, vels id ≤ vels j)
      ∧ (selectQuietest vels order bestVel best = none →
          best = none ∧ ∀ j ∈ order, bestVel ≤ vels j) := by
  induction order with
  | nil =>
    intro bestVel best hinv
    constructor
    · intro id hid
      have : best = some id := hid
      exact ⟨le_of_eq (hinv id this), Or.inr this, by simp⟩
    · intro hid
      exact ⟨hid, by simp⟩
  | cons a rest ih =>
    intro bestVel best hinv
    have hstep : selectQuietest vels (a :: rest) bestVel best =
        if vels a < bestVel then selectQuietest vels rest (vels a) (some a)
        else selectQuietest vels rest bestVel best := rfl
    by_cases hlt : vels a < bestVel
    · have hrec := ih (vels a) (some a) (by intro i hi; cases hi; rfl)
      constructor
      · intro id hid
        have hid2 : selectQuietest vels rest (vels a) (some a) = some id := by
          rw [hstep, if_pos hlt] at hid; exact hid
        obtain ⟨h1, h2, h3⟩ := hrec.1 id hid2
        have hida : vels id ≤ vels a := h1
        refine ⟨le_trans hida (le_of_lt hlt), ?_, ?_⟩
        · left
          constructor
          · rcases h2 with ⟨hm, _⟩ | he
            · exact List.mem_cons_of_mem a hm
            · have : a = id := by injection he
              rw [← this]; exact List.mem_cons_self a rest
          · exact lt_of_le_of_lt hida hlt
        · intro j hj
          rcases List.mem_cons.mp hj with hj1 | hj2
          · rw [hj1]; exact hida
          · exact h3 j hj2
      · intro hid
        have hid2 : selectQuietest vels rest (vels a) (some a) = none := by
          rw [hstep, if_pos hlt] at hid; exact hid
        exact absurd (hrec.2 hid2).1 (by simp)
    · have hrec := ih bestVel best hinv
      constructor
      · intro id hid
        have hid2 : selectQuietest vels rest bestVel best = some id := by
          rw [hstep, if_neg hlt] at hid; exact hid
        obtain ⟨h1, h2, h3⟩ := hrec.1 id hid2
        refine ⟨h1, ?_, ?_⟩
        · rcases h2 with ⟨hm, hv⟩ | he
          · exact Or.inl ⟨List.mem_cons_of_mem a hm, hv⟩
          · exact Or.inr he
        · intro j hj
          rcases List.mem_cons.mp hj with hj1 | hj2
          · rw [hj1]; exact le_trans h1 (le_of_not_lt hlt)
          · exact h3 j hj2
      · intro hid
        have hid2 : selectQuietest vels rest bestVel best = none := by
          rw [hstep, if_neg hlt] at hid; exact hid
        obtain ⟨h1, h2⟩ := hrec.2 hid2
        refine ⟨h1, ?_⟩
        intro j hj
        rcases List.mem_cons.mp hj with hj1 | hj2
        · rw [hj1]; exact le_of_not_lt hlt
        · exact h2 j hj2

/-- C2 (amended): for every iteration order of the group HashMap that covers
all candidate groups (groups other than ignored_id with a non-killed voice;
absent ids rank as velocity 255 and are never selected), the scan of
pop_quietest_voice_group selects a group whose representative velocity — the
velocity of the first non-killed member in insertion order — is strictly below
u8::MAX = 255 and minimal among all groups; when every candidate has
representative velocity 255 nothing is selected (and nothing is stolen).
Which group among equal minima is selected depends on the iteration order. -/
theorem pop_quietest_selects_minimal (vb : VoiceBuffer) (order : List ℕ) (ignored : ℕ)
    (hord : ∀ j, mapVel ignored vb.buffer j ≠ none → j ∈ order) :
    (∀ id, popSelection order ignored vb = some id →
        (mapVel ignored vb.buffer id).getD 255 < 255 ∧
        ∀ j, (mapVel ignored vb.buffer id).getD 255 ≤ (mapVel ignored vb.buffer j).getD 255)
    ∧ (popSelection order ignored vb = none →
        ∀ j, 255 ≤ (mapVel ignored vb.buffer j).getD 255) := by
  have hinv := selectQuietest_invariant
    (fun id => (mapVel ignored vb.buffer id).getD 255) order 255 none (by simp)
  constructor
  · intro id hid
    obtain ⟨h1, h2, h3⟩ := hinv.1 id hid
    have hlt : (mapVel ignored vb.buffer id).getD 255 < 255 := by
      rcases h2 with ⟨_, hv⟩ | he
      · exact hv
      · exact absurd he (by simp)
    refine ⟨hlt, ?_⟩
    intro j
    by_cases hj : mapVel ignored vb.buffer j = none
    · rw [hj]
      exact le_of_lt (by simpa using hlt)
    · exact h3 j (hord j hj)
  · intro hid
    intro j
    by_cases hj : mapVel ignored vb.buffer j = none
    · rw [hj]; simp
    · exact (hinv.2 hid).2 j (hord j hj)

/-- Witness: the amended selection property applied to the empty buffer with
the empty iteration order (no candidate groups, so nothing is selected). -/
theorem pop_quietest_selects_minimal_witness :
    (∀ id, popSelection [] 0 (VoiceBuffer.new ⟨false, 1⟩) = some id →
        (mapVel 0 (VoiceBuffer.new ⟨false, 1⟩).buffer id).getD 255 < 255 ∧
        ∀ j, (mapVel 0 (VoiceBuffer.new ⟨false, 1⟩).buffer id).getD 255 ≤
          (mapVel 0 (VoiceBuffer.new ⟨false, 1⟩).buffer j).getD 255)
    ∧ (popSelection [] 0 (VoiceBuffer.new ⟨false, 1⟩) = none →
        ∀ j, 255 ≤ (mapVel 0 (VoiceBuffer.new ⟨false, 1⟩).buffer j).getD 255) :=
  pop_quietest_selects_minimal (VoiceBuffer.new ⟨false, 1⟩) [] 0
    (fun _ h => absurd rfl h)

/-- C2 (counterexample): the claim as stated fails twice.  On vbTie the two
groups tie at the lowest velocity 10 and the HashMap iteration order [2, 1]
makes pop_quietest_voice_group steal group 2, not the group occurring earliest
in the buffer (group 1 survives, so the remaining buffer is the group-1 voice).
On vbMaxVel the unique (hence lowest-velocity) candidate group has velocity
255 and the scan, which starts its running best at u8::MAX with a strict
comparison, selects nothing at all: the buffer is returned unchanged instead
of the lowest-velocity group being stolen. -/
theorem pop_quietest_counterexample :
    (vbTie.pop_quietest_voice_group [2, 1] 0).buffer = [⟨1, 10, false, false, false⟩] ∧
    vbMaxVel.pop_quietest_voice_group [1] 0 = vbMaxVel := by
  decide

/-- Helper: once the walk of release_next_voice has locked onto group G, it
Standard-releases every further voice of group G, skips releasing or killed
voices of any group, and stops at the first eligible voice of another group. -/
theorem releaseWalk_some (G : ℕ) (vel : Option ℕ) :
    ∀ buf : List BufVoice, releaseWalk buf (some G) vel = (releaseRun G buf, vel) := by
  intro buf
  induction buf with
  | nil => rfl
  | cons v rest ih =>
    have hstep : releaseWalk (v :: rest) (some G) vel =
        (if v.releasing = true ∨ v.killed = true then
          (v :: (releaseWalk rest (some G) vel).1, (releaseWalk rest (some G) vel).2)
        else if some G ≠ some v.id then (v :: rest, vel)
        else (signalRelease ReleaseType.Standard v :: (releaseWalk rest (some G) vel).1,
          (releaseWalk rest (some G) vel).2)) := rfl
    have hrun : releaseRun G (v :: rest) =
        (if eligibleV v = true then
          (if v.id = G then signalRelease ReleaseType.Standard v :: releaseRun G rest
           else v :: rest)
         else v :: releaseRun G rest) := rfl
    by_cases hskip : v.releasing = true ∨ v.killed = true
    · have he : eligibleV v = false := by
        unfold eligibleV; rcases hskip with h | h <;> simp [h]
      rw [hstep, if_pos hskip, ih, hrun, he]
      simp
    · have he : eligibleV v = true := by
        unfold eligibleV; push_neg at hskip; simp [hskip.1, hskip.2]
      by_cases hid : v.id = G
      · rw [hstep, if_neg hskip, if_neg (show ¬some G ≠ some v.id by simp [hid]),
          ih, hrun, he]
        simp [hid]
      · rw [hstep, if_neg hskip,
          if_pos (show some G ≠ some v.id by simp; exact fun h => hid h.symm),
          hrun, he]
        simp [hid]

/-- Helper: the damper-released walk of release_next_voice equals the find?
based description: no eligible voice means no change and no velocity; the
first eligible voice fixes the released group and the returned velocity. -/
theorem releaseWalk_none :
    ∀ buf : List BufVoice, releaseWalk buf none none =
      (match buf.find? eligibleV with
       | none => (buf, none)
       | some v => (releaseRun v.id buf, some v.velocity)) := by
  intro buf
  induction buf with
  | nil => rfl
  | cons v rest ih =>
    have hstep : releaseWalk (v :: rest) none none =
        (if v.releasing = true ∨ v.killed = true then
          (v :: (releaseWalk rest none none).1, (releaseWalk rest none none).2)
        else if some v.id ≠ some v.id then (v :: rest, some v.velocity)
        else (signalRelease ReleaseType.Standard v ::
            (releaseWalk rest (some v.id) (some v.velocity)).1,
          (releaseWalk rest (some v.id) (some v.velocity)).2)) := rfl
    by_cases hskip : v.releasing = true ∨ v.killed = true
    · have he : eligibleV v = false := by
        unfold eligibleV; rcases hskip with h | h <;> simp [h]
      have hfind : (v :: rest).find? eligibleV = rest.find? eligibleV :=
        List.find?_cons_of_neg _ (by simp [he])
      rw [hstep, if_pos hskip, ih, hfind]
      cases hrest : rest.find? eligibleV with
      | none => simp
      | some u =>
        have hrunU : releaseRun u.id (v :: rest) =
            (if eligibleV v = true then
              (if v.id = u.id then signalRelease ReleaseType.Standard v :: releaseRun u.id rest
               else v :: rest)
             else v :: releaseRun u.id rest) := rfl
        dsimp only
        rw [hrunU, he]
        simp
    · have he : eligibleV v = true := by
        unfold eligibleV; push_neg at hskip; simp [hskip.1, hskip.2]
      have hfind : (v :: rest).find? eligibleV = some v :=
        List.find?_cons_of_pos _ he
      have hrunV : releaseRun v.id (v :: rest) =
          (if eligibleV v = true then
            (if v.id = v.id then signalRelease ReleaseType.Standard v :: releaseRun v.id rest
             else v :: rest)
           else v :: releaseRun v.id rest) := rfl
      rw [hstep, if_neg hskip, if_neg (show ¬some v.id ≠ some v.id by simp),
        releaseWalk_some v.id (some v.velocity) rest, hfind]
      dsimp only
      rw [hrunV, he]
      simp

/-- Helper: the damper-held walk appends exactly the id of the first voice
that is neither releasing nor killed nor already held, if one exists. -/
theorem damperWalk_spec (held : List ℕ) :
    ∀ buf : List BufVoice, damperWalk held buf =
      (match buf.find? (fun v => eligibleV v && !held.contains v.id) with
       | none => held
       | some v => held ++ [v.id]) := by
  intro buf
  induction buf with
  | nil => rfl
  | cons v rest ih =>
    have hstep : damperWalk held (v :: rest) =
        (if v.releasing = true ∨ v.killed = true then damperWalk held rest
         else if v.id ∈ held then damperWalk held rest
         else held ++ [v.id]) := rfl
    by_cases hskip : v.releasing = true ∨ v.killed = true
    · have he : eligibleV v = false := by
        unfold eligibleV; rcases hskip with h | h <;> simp [h]
      have hfind : (v :: rest).find? (fun v => eligibleV v && !held.contains v.id) =
          rest.find? (fun v => eligibleV v && !held.contains v.id) :=
        List.find?_cons_of_neg _ (by simp [he])
      rw [hstep, if_pos hskip, ih, hfind]
    · have he : eligibleV v = true := by
        unfold eligibleV; push_neg at hskip; simp [hskip.1, hskip.2]
      by_cases hmem : v.id ∈ held
      · have hfind : (v :: rest).find? (fun v => eligibleV v && !held.contains v.id) =
            rest.find? (fun v => eligibleV v && !held.contains v.id) :=
          List.find?_cons_of_neg _ (by simp [he, hmem])
        rw [hstep, if_neg hskip, if_pos hmem, ih, hfind]
      · have hfind : (v :: rest).find? (fun v => eligibleV v && !held.contains v.id) =
            some v :=
          List.find?_cons_of_pos _ (by simp [he, hmem])
        rw [hstep, if_neg hskip, if_neg hmem, hfind]

/-- C4 (amended): release_next_voice behaves as follows.  Damper released: if
no voice is eligible (neither releasing nor killed) the buffer is unchanged
and None is returned; otherwise, with v the first eligible voice, every
eligible voice of group v.id before the first eligible voice of another group
receives a Standard release — releasing or killed voices of any group are
skipped, they do not stop the walk — and Some v.velocity is returned.  Damper
held: the group id of the first voice that is neither releasing nor killed nor
already in held_by_damper is appended to held_by_damper, no release is
signalled, and None is returned. -/
theorem release_next_voice_spec (vb : VoiceBuffer) :
    (vb.damper_held = false →
      vb.release_next_voice =
        match vb.buffer.find? eligibleV with
        | none => (vb, none)
        | some v => ({ vb with buffer := releaseRun v.id vb.buffer }, some v.velocity))
    ∧ (vb.damper_held = true →
      vb.release_next_voice =
        (match vb.buffer.find? (fun v => eligibleV v && !vb.held_by_damper.contains v.id) with
         | none => vb
         | some v => { vb with held_by_damper := vb.held_by_damper ++ [v.id] },
         none)) := by
  have hstep : vb.release_next_voice =
      (if vb.damper_held = false then
        ({ vb with buffer := (releaseWalk vb.buffer none none).1 },
          (releaseWalk vb.buffer none none).2)
       else ({ vb with held_by_damper := damperWalk vb.held_by_damper vb.buffer }, none)) := rfl
  constructor
  · intro hd
    rw [hstep, if_pos hd, releaseWalk_none]
    cases hfind : vb.buffer.find? eligibleV with
    | none => rfl
    | some v => rfl
  · intro hd
    rw [hstep, if_neg (by simp [hd]), damperWalk_spec]
    cases hfind : vb.buffer.find? (fun v => eligibleV v && !vb.held_by_damper.contains v.id) with
    | none => rfl
    | some v => rfl

/-- Witness: the amended release description applied to the concrete split
buffer with the damper released. -/
theorem release_next_voice_spec_witness :
    vbSplit.release_next_voice =
      match vbSplit.buffer.find? eligibleV with
      | none => (vbSplit, none)
      | some v => ({ vbSplit with buffer := releaseRun v.id vbSplit.buffer }, some v.velocity) :=
  (release_next_voice_spec vbSplit).1 rfl

/-- C4 (counterexample): on vbSplit, whose group 1 is split around a killed
group-2 voice, the source walk skips the killed voice and Standard-releases
the second group-1 voice as well, whereas the claim as stated stops the walk
at the first voice with a different group id and leaves that voice untouched:
the resulting buffers differ. -/
theorem release_next_voice_counterexample :
    (vbSplit.release_next_voice).1.buffer ≠ (releaseClaimWalk vbSplit.buffer).1 := by
  decide

/-- Helper: addLane only depends on the lane values at the written offsets. -/
theorem addLane_congr {α : Type} [Add α] (f f2 : ℕ → α) :
    ∀ (l : List α) (k : ℕ), (∀ i, i < l.length → f (k + i) = f2 (k + i)) →
      addLane f k l = addLane f2 k l := by
  intro l
  induction l with
  | nil => intro k _; rfl
  | cons x rest ih =>
    intro k h
    have h0 : f k = f2 k := by simpa using h 0 (by simp)
    have hrec := ih (k + 1) fun i hi => by
      have hh := h (i + 1) (by simpa using Nat.succ_lt_succ hi)
      rw [show k + 1 + i = k + (i + 1) from by omega]
      exact hh
    unfold addLane
    rw [h0, hrec]

/-- Helper: shifting the lane function matches shifting the start offset. -/
theorem addLane_shift {α : Type} [Add α] (f : ℕ → α) (m : ℕ) :
    ∀ (l : List α) (k : ℕ), addLane (fun n => f (m + n)) k l = addLane f (m + k) l := by
  intro l
  induction l with
  | nil => intro k; rfl
  | cons x rest ih =>
    intro k
    unfold addLane
    rw [ih (k + 1), show m + (k + 1) = m + k + 1 from by omega]

/-- Helper: shifting the lane function matches the start offset, from zero. -/
theorem addLane_shift0 {α : Type} [Add α] (f : ℕ → α) (m : ℕ) (l : List α) :
    addLane (fun n => f (m + n)) 0 l = addLane f m l := by
  have h := addLane_shift f m l 0
  simpa using h

/-- Helper: addLane distributes over append with the offset advanced by the
first length. -/
theorem addLane_append {α : Type} [Add α] (f : ℕ → α) :
    ∀ (l1 l2 : List α) (k : ℕ),
      addLane f k (l1 ++ l2) = addLane f k l1 ++ addLane f (k + l1.length) l2 := by
  intro l1
  induction l1 with
  | nil => intro l2 k; simp [addLane]
  | cons x rest ih =>
    intro l2 k
    have hstep1 : addLane f k ((x :: rest) ++ l2) =
        (x + f k) :: addLane f (k + 1) (rest ++ l2) := rfl
    have hstep2 : addLane f k (x :: rest) = (x + f k) :: addLane f (k + 1) rest := rfl
    rw [hstep1, ih l2 (k + 1), hstep2, List.cons_append,
      show k + (x :: rest).length = k + 1 + rest.length from by
        rw [List.length_cons]; omega]

/-- Helper: closed form of the drain phase.  With remainder_pos = pos at most
W, the drain writes the lanes rem pos, rem (pos+1), ... onto the first
W - pos buffer elements, advances remainder_pos by the amount consumed, and
leaves the rest of the buffer. -/
theorem simdDrain_eq {α : Type} [Add α] (W : ℕ) (rem : ℕ → α) :
    ∀ (buf : List α) (pos : ℕ), pos ≤ W →
      simdDrain W rem pos buf =
        (addLane rem pos (buf.take (W - pos)), min (pos + buf.length) W,
          buf.drop (W - pos)) := by
  intro buf
  induction buf with
  | nil =>
    intro pos hp
    simp [simdDrain, addLane, Nat.min_eq_left hp]
  | cons x rest ih =>
    intro pos hp
    have hstep : simdDrain W rem pos (x :: rest) =
        (if pos < W then
          ((x + rem pos) :: (simdDrain W rem (pos + 1) rest).1,
            (simdDrain W rem (pos + 1) rest).2)
         else ([], pos, x :: rest)) := rfl
    by_cases hlt : pos < W
    · rw [hstep, if_pos hlt, ih (pos + 1) hlt]
      have h1 : (x :: rest).take (W - pos) = x :: rest.take (W - (pos + 1)) := by
        rw [show W - pos = (W - (pos + 1)) + 1 from by omega, List.take_succ_cons]
      have h2 : (x :: rest).drop (W - pos) = rest.drop (W - (pos + 1)) := by
        rw [show W - pos = (W - (pos + 1)) + 1 from by omega, List.drop_succ_cons]
      rw [h1, h2]
      simp only [addLane, List.length_cons, Prod.mk.injEq, true_and, and_true]
      omega
    · have hew : pos = W := le_antisymm hp (le_of_not_lt hlt)
      subst hew
      rw [hstep, if_neg hlt]
      simp only [Nat.sub_self, List.take_zero, List.drop_zero, addLane, Prod.mk.injEq,
        true_and, and_true]
      omega

/-- Helper: closed form of the bulk phase with sufficient fuel.  With
k = length / W full blocks available, the bulk phase pulls k times, writing
the lanes of pull pulls + n / W at offsets n across the first W * k elements,
and leaves the remaining length % W elements. -/
theorem simdBulk_eq {α : Type} [Add α] (g : ℕ → ℕ → α) (W : ℕ) :
    ∀ (fuel pulls : ℕ) (buf : List α), buf.length ≤ fuel →
      simdBulk g W fuel pulls buf =
        (addLane (fun n => g (pulls + n / W) (n % W)) 0 (buf.take (W * (buf.length / W))),
         pulls + buf.length / W,
         buf.drop (W * (buf.length / W))) := by
  intro fuel
  induction fuel with
  | zero =>
    intro pulls buf hle
    have hb : buf = [] := List.eq_nil_of_length_eq_zero (Nat.le_zero.mp hle)
    subst hb
    simp [simdBulk, addLane]
  | succ n ih =>
    intro pulls buf hle
    have hstep : simdBulk g W (n + 1) pulls buf =
        (if 0 < W ∧ W ≤ buf.length then
          (addLane (g pulls) 0 (buf.take W) ++ (simdBulk g W n (pulls + 1) (buf.drop W)).1,
            (simdBulk g W n (pulls + 1) (buf.drop W)).2)
         else ([], pulls, buf)) := rfl
    by_cases hg : 0 < W ∧ W ≤ buf.length
    · obtain ⟨hW, hlen⟩ := hg
      have hdl : (buf.drop W).length ≤ n := by
        rw [List.length_drop]; omega
      have hlend : (buf.drop W).length = buf.length - W := List.length_drop W buf
      rw [hstep, if_pos ⟨hW, hlen⟩, ih (pulls + 1) (buf.drop W) hdl, hlend]
      dsimp only
      have hdiv : buf.length / W = (buf.length - W) / W + 1 := by
        conv_lhs => rw [show buf.length = (buf.length - W) + W from by omega]
        rw [Nat.add_div_right _ hW]
      have hWk : W * (buf.length / W) = W + W * ((buf.length - W) / W) := by
        rw [hdiv]; ring
      have htake : buf.take (W * (buf.length / W)) =
          buf.take W ++ (buf.drop W).take (W * ((buf.length - W) / W)) := by
        rw [hWk, List.take_add]
      have hlentake : (buf.take W).length = W := by
        rw [List.length_take]; omega
      have hfirst : addLane (fun n => g (pulls + n / W) (n % W)) 0 (buf.take W) =
          addLane (g pulls) 0 (buf.take W) := by
        refine addLane_congr _ _ _ 0 fun i hi => ?_
        rw [hlentake] at hi
        simp only [Nat.zero_add]
        rw [Nat.div_eq_of_lt hi, Nat.mod_eq_of_lt hi, Nat.add_zero]
      have hsecond : addLane (fun n => g (pulls + n / W) (n % W)) W
            ((buf.drop W).take (W * ((buf.length - W) / W))) =
          addLane (fun n => g (pulls + 1 + n / W) (n % W)) 0
            ((buf.drop W).take (W * ((buf.length - W) / W))) := by
        rw [← addLane_shift0 (fun n => g (pulls + n / W) (n % W)) W]
        refine addLane_congr _ _ _ 0 fun i hi => ?_
        dsimp only
        rw [Nat.zero_add, show W + i = i + W from by omega, Nat.add_div_right _ hW,
          Nat.add_mod_right,
          show pulls + (i / W + 1) = pulls + 1 + i / W from by omega]
      have hdrop : (buf.drop W).drop (W * ((buf.length - W) / W)) =
          buf.drop (W * (buf.length / W)) := by
        rw [List.drop_drop, hWk]
      rw [htake, addLane_append, hlentake, Nat.zero_add, hfirst, hsecond, hdrop]
      simp only [Prod.mk.injEq, true_and, and_true]
      omega
    · have h0 : buf.length / W = 0 := by
        rcases Nat.eq_zero_or_pos W with hw | hw
        · rw [hw]; exact Nat.div_zero _
        · push_neg at hg
          exact Nat.div_eq_of_lt (by omega)
      rw [hstep, if_neg hg]
      simp [h0, addLane]

/-- Helper: closed form of render_to.  When the buffer fits in the remainder
the drain alone serves it; otherwise the drain empties the remainder, the bulk
phase pulls length / W full blocks, and a nonempty tail triggers one more pull
that refills the remainder. -/
theorem renderTo_closed {α : Type} [Add α] (W : ℕ) (g : ℕ → ℕ → α)
    (pulls : ℕ) (rem : ℕ → α) (pos : ℕ) (buf : List α)
    (hW : 0 < W) (hpos : pos ≤ W) :
    renderTo W g ⟨pulls, rem, pos⟩ buf =
      if buf.length ≤ W - pos then
        (addLane rem pos buf, ⟨pulls, rem, pos + buf.length⟩)
      else
        (addLane rem pos (buf.take (W - pos)) ++
          addLane (fun n => g (pulls + n / W) (n % W)) 0
            ((buf.drop (W - pos)).take (W * ((buf.length - (W - pos)) / W))) ++
          (if (buf.length - (W - pos)) % W = 0 then []
           else addLane (g (pulls + (buf.length - (W - pos)) / W)) 0
             ((buf.drop (W - pos)).drop (W * ((buf.length - (W - pos)) / W)))),
         if (buf.length - (W - pos)) % W = 0 then
           (⟨pulls + (buf.length - (W - pos)) / W, rem, W⟩ : SIMDVoiceState α)
         else
           ⟨pulls + (buf.length - (W - pos)) / W + 1,
            g (pulls + (buf.length - (W - pos)) / W),
            (buf.length - (W - pos)) % W⟩) := by
  by_cases hsmall : buf.length ≤ W - pos
  · have htake0 : buf.take (W - pos) = buf := List.take_of_length_le hsmall
    have hdrop0 : buf.drop (W - pos) = [] := List.drop_eq_nil_of_le hsmall
    simp only [renderTo]
    rw [simdDrain_eq W rem buf pos hpos, htake0, hdrop0]
    dsimp only [simdBulk, simdTail, List.length_nil]
    rw [if_pos hsmall]
    simp only [List.append_nil, Prod.mk.injEq, SIMDVoiceState.mk.injEq, true_and, and_true]
    omega
  · have hmin : min (pos + buf.length) W = W := by omega
    simp only [renderTo]
    rw [simdDrain_eq W rem buf pos hpos,
      simdBulk_eq g W ((buf.drop (W - pos)).length) pulls (buf.drop (W - pos)) (le_refl _)]
    dsimp only
    rw [List.length_drop, hmin, if_neg hsmall]
    have hdm := Nat.div_add_mod (buf.length - (W - pos)) W
    by_cases hr : (buf.length - (W - pos)) % W = 0
    · have hrest : (buf.drop (W - pos)).drop (W * ((buf.length - (W - pos)) / W)) = [] := by
        apply List.drop_eq_nil_of_le
        rw [List.length_drop]
        omega
      rw [hrest]
      dsimp only [simdTail]
      rw [if_pos hr, if_pos hr]
    · have hlrest : ((buf.drop (W - pos)).drop (W * ((buf.length - (W - pos)) / W))).length =
          (buf.length - (W - pos)) % W := by
        rw [List.length_drop, List.length_drop]
        omega
      have hrest_ne : (buf.drop (W - pos)).drop (W * ((buf.length - (W - pos)) / W)) ≠ [] := by
        intro hnil
        rw [hnil] at hlrest
        exact hr (by simpa using hlrest.symm)
      rw [if_neg hr, if_neg hr]
      cases hrc : (buf.drop (W - pos)).drop (W * ((buf.length - (W - pos)) / W)) with
      | nil => exact absurd hrc hrest_ne
      | cons a t =>
        dsimp only [simdTail]
        rw [hrc] at hlrest
        rw [hlrest]

/-- Helper: render_to adds exactly the next buffer-length samples of the
voice output stream onto the buffer. -/
theorem renderTo_fst {α : Type} [Add α] (W : ℕ) (g : ℕ → ℕ → α)
    (st : SIMDVoiceState α) (buf : List α) (hW : 0 < W)
    (hpos : st.remainderPos ≤ W) :
    (renderTo W g st buf).1 = addLane (streamOf W g st) 0 buf := by
  obtain ⟨pulls, rem, pos⟩ := st
  dsimp only at hpos
  rw [renderTo_closed W g pulls rem pos buf hW hpos]
  by_cases hsmall : buf.length ≤ W - pos
  · rw [if_pos hsmall]
    dsimp only
    rw [← addLane_shift0 rem pos buf]
    refine (addLane_congr _ _ buf 0 fun i hi => ?_).symm
    simp only [Nat.zero_add, streamOf]
    rw [if_pos (by omega)]
  · rw [if_neg hsmall]
    dsimp only
    have hlentake : (buf.take (W - pos)).length = W - pos := by
      rw [List.length_take]; omega
    have hdm := Nat.div_add_mod (buf.length - (W - pos)) W
    have hsplit1 : addLane (streamOf W g ⟨pulls, rem, pos⟩) 0 buf =
        addLane (streamOf W g ⟨pulls, rem, pos⟩) 0 (buf.take (W - pos)) ++
        addLane (streamOf W g ⟨pulls, rem, pos⟩) (W - pos) (buf.drop (W - pos)) := by
      conv_lhs => rw [← List.take_append_drop (W - pos) buf]
      rw [addLane_append, Nat.zero_add, hlentake]
    have hlentake2 : ((buf.drop (W - pos)).take
        (W * ((buf.length - (W - pos)) / W))).length =
        W * ((buf.length - (W - pos)) / W) := by
      rw [List.length_take, List.length_drop]
      omega
    have hsplit2 : addLane (streamOf W g ⟨pulls, rem, pos⟩) (W - pos) (buf.drop (W - pos)) =
        addLane (streamOf W g ⟨pulls, rem, pos⟩) (W - pos)
          ((buf.drop (W - pos)).take (W * ((buf.length - (W - pos)) / W))) ++
        addLane (streamOf W g ⟨pulls, rem, pos⟩)
          (W - pos + W * ((buf.length - (W - pos)) / W))
          ((buf.drop (W - pos)).drop (W * ((buf.length - (W - pos)) / W))) := by
      conv_lhs =>
        rw [← List.take_append_drop (W * ((buf.length - (W - pos)) / W)) (buf.drop (W - pos))]
      rw [addLane_append, hlentake2]
    have hpiece1 : addLane (streamOf W g ⟨pulls, rem, pos⟩) 0 (buf.take (W - pos)) =
        addLane rem pos (buf.take (W - pos)) := by
      rw [← addLane_shift0 rem pos]
      refine addLane_congr _ _ _ 0 fun i hi => ?_
      rw [hlentake] at hi
      simp only [Nat.zero_add, streamOf]
      rw [if_pos (by omega)]
    have hpiece2 : addLane (streamOf W g ⟨pulls, rem, pos⟩) (W - pos)
          ((buf.drop (W - pos)).take (W * ((buf.length - (W - pos)) / W))) =
        addLane (fun n => g (pulls + n / W) (n % W)) 0
          ((buf.drop (W - pos)).take (W * ((buf.length - (W - pos)) / W))) := by
      rw [← addLane_shift0 (streamOf W g ⟨pulls, rem, pos⟩) (W - pos)]
      refine addLane_congr _ _ _ 0 fun i hi => ?_
      simp only [Nat.zero_add, streamOf]
      rw [if_neg (by omega), show W - pos + i - (W - pos) = i from by omega]
    have hpiece3 : addLane (streamOf W g ⟨pulls, rem, pos⟩)
          (W - pos + W * ((buf.length - (W - pos)) / W))
          ((buf.drop (W - pos)).drop (W * ((buf.length - (W - pos)) / W))) =
        addLane (g (pulls + (buf.length - (W - pos)) / W)) 0
          ((buf.drop (W - pos)).drop (W * ((buf.length - (W - pos)) / W))) := by
      rw [← addLane_shift0 (streamOf W g ⟨pulls, rem, pos⟩)
        (W - pos + W * ((buf.length - (W - pos)) / W))]
      refine addLane_congr _ _ _ 0 fun i hi => ?_
      rw [List.length_drop, List.length_drop] at hi
      have hmod : (buf.length - (W - pos)) % W < W := Nat.mod_lt _ hW
      have hiw : i < W := by omega
      simp only [Nat.zero_add, streamOf]
      rw [if_neg (by omega),
        show W - pos + W * ((buf.length - (W - pos)) / W) + i - (W - pos) =
          W * ((buf.length - (W - pos)) / W) + i from by omega,
        Nat.mul_add_div hW, Nat.mul_add_mod, Nat.div_eq_of_lt hiw, Nat.mod_eq_of_lt hiw,
        Nat.add_zero]
    rw [hsplit1, hsplit2, hpiece1, hpiece2, hpiece3, List.append_assoc]
    by_cases hr : (buf.length - (W - pos)) % W = 0
    · rw [if_pos hr]
      have hrest : (buf.drop (W - pos)).drop (W * ((buf.length - (W - pos)) / W)) = [] := by
        apply List.drop_eq_nil_of_le
        rw [List.length_drop]
        omega
      rw [hrest]
      rfl
    · rw [if_neg hr]

/-- Helper: after render_to, the state produces exactly the old stream shifted
by the buffer length: no sample is lost or duplicated by the carry-over. -/
theorem renderTo_stream {α : Type} [Add α] (W : ℕ) (g : ℕ → ℕ → α)
    (st : SIMDVoiceState α) (buf : List α) (hW : 0 < W)
    (hpos : st.remainderPos ≤ W) (n : ℕ) :
    streamOf W g (renderTo W g st buf).2 n = streamOf W g st (buf.length + n) := by
  obtain ⟨pulls, rem, pos⟩ := st
  dsimp only at hpos
  rw [renderTo_closed W g pulls rem pos buf hW hpos]
  have hdm := Nat.div_add_mod (buf.length - (W - pos)) W
  have hmod : (buf.length - (W - pos)) % W < W := Nat.mod_lt _ hW
  by_cases hsmall : buf.length ≤ W - pos
  · rw [if_pos hsmall]
    simp only [streamOf]
    try dsimp only
    by_cases h1 : n < W - (pos + buf.length)
    · rw [if_pos h1, if_pos (by omega),
        show pos + buf.length + n = pos + (buf.length + n) from by omega]
    · rw [if_neg h1, if_neg (by omega),
        show n - (W - (pos + buf.length)) = buf.length + n - (W - pos) from by omega]
  · rw [if_neg hsmall]
    try dsimp only
    by_cases hr : (buf.length - (W - pos)) % W = 0
    · rw [if_pos hr]
      simp only [streamOf]
      try dsimp only
      rw [if_neg (by omega), if_neg (by omega),
        show n - (W - W) = n from by omega,
        show buf.length + n - (W - pos) =
          W * ((buf.length - (W - pos)) / W) + n from by omega,
        Nat.mul_add_div hW, Nat.mul_add_mod,
        show pulls + ((buf.length - (W - pos)) / W + n / W) =
          pulls + (buf.length - (W - pos)) / W + n / W from by omega]
    · rw [if_neg hr]
      simp only [streamOf]
      try dsimp only
      have hk1 : W * ((buf.length - (W - pos)) / W + 1) =
          W * ((buf.length - (W - pos)) / W) + W := by ring
      by_cases h1 : n < W - (buf.length - (W - pos)) % W
      · have h2 : (buf.length - (W - pos)) % W + n < W := by omega
        rw [if_pos h1, if_neg (by omega),
          show buf.length + n - (W - pos) =
            W * ((buf.length - (W - pos)) / W) + ((buf.length - (W - pos)) % W + n)
            from by omega,
          Nat.mul_add_div hW, Nat.mul_add_mod,
          Nat.div_eq_of_lt h2, Nat.mod_eq_of_lt h2, Nat.add_zero]
      · rw [if_neg h1, if_neg (by omega),
          show buf.length + n - (W - pos) =
            W * ((buf.length - (W - pos)) / W + 1) +
              (n - (W - (buf.length - (W - pos)) % W)) from by rw [hk1]; omega,
          Nat.mul_add_div hW, Nat.mul_add_mod,
          show pulls + ((buf.length - (W - pos)) / W + 1 +
              (n - (W - (buf.length - (W - pos)) % W)) / W) =
            pulls + (buf.length - (W - pos)) / W + 1 +
              (n - (W - (buf.length - (W - pos)) % W)) / W from by omega]

/-- Helper: the state equation of render_to.  The remainder position stays in
[1, W] (when it started at least 1), and the total generator production
pulls * W + remainder_pos advances by exactly the buffer length. -/
theorem renderTo_state {α : Type} [Add α] (W : ℕ) (g : ℕ → ℕ → α)
    (st : SIMDVoiceState α) (buf : List α) (hW : 0 < W)
    (hpos : st.remainderPos ≤ W) :
    (renderTo W g st buf).2.remainderPos ≤ W ∧
    (1 ≤ st.remainderPos → 1 ≤ (renderTo W g st buf).2.remainderPos) ∧
    (renderTo W g st buf).2.pulls * W + (renderTo W g st buf).2.remainderPos =
      st.pulls * W + st.remainderPos + buf.length := by
  obtain ⟨pulls, rem, pos⟩ := st
  dsimp only at hpos
  rw [renderTo_closed W g pulls rem pos buf hW hpos]
  have hdm := Nat.div_add_mod (buf.length - (W - pos)) W
  have hmod : (buf.length - (W - pos)) % W < W := Nat.mod_lt _ hW
  by_cases hsmall : buf.length ≤ W - pos
  · rw [if_pos hsmall]
    try dsimp only
    exact ⟨by omega, by omega, by omega⟩
  · rw [if_neg hsmall]
    try dsimp only
    by_cases hr : (buf.length - (W - pos)) % W = 0
    · rw [if_pos hr]
      try dsimp only
      have hmul : (pulls + (buf.length - (W - pos)) / W) * W =
          pulls * W + W * ((buf.length - (W - pos)) / W) := by ring
      exact ⟨le_refl W, fun _ => hW, by omega⟩
    · rw [if_neg hr]
      try dsimp only
      have hmul : (pulls + (buf.length - (W - pos)) / W + 1) * W =
          pulls * W + W * ((buf.length - (W - pos)) / W) + W := by ring
      exact ⟨by omega, by omega, by omega⟩

/-- Helper: a sequence of render_to calls writes exactly the concatenated
prefix of the voice output stream across the concatenated buffers. -/
theorem renderToSeq_fst {α : Type} [Add α] (W : ℕ) (g : ℕ → ℕ → α) :
    ∀ (bufs : List (List α)) (st : SIMDVoiceState α), 0 < W → st.remainderPos ≤ W →
      (renderToSeq W g st bufs).1.flatten = addLane (streamOf W g st) 0 bufs.flatten := by
  intro bufs
  induction bufs with
  | nil => intro st hW hpos; rfl
  | cons b bs ih =>
    intro st hW hpos
    have hstep : renderToSeq W g st (b :: bs) =
        ((renderTo W g st b).1 :: (renderToSeq W g (renderTo W g st b).2 bs).1,
          (renderToSeq W g (renderTo W g st b).2 bs).2) := rfl
    have hst := renderTo_state W g st b hW hpos
    have hrec := ih (renderTo W g st b).2 hW hst.1
    rw [hstep]
    show (renderTo W g st b).1 ++ (renderToSeq W g (renderTo W g st b).2 bs).1.flatten = _
    rw [renderTo_fst W g st b hW hpos, hrec,
      addLane_congr (streamOf W g (renderTo W g st b).2)
        (fun n => streamOf W g st (b.length + n)) bs.flatten 0
        (fun i _ => renderTo_stream W g st b hW hpos (0 + i)),
      addLane_shift0 (streamOf W g st) b.length bs.flatten,
      show (b :: bs).flatten = b ++ bs.flatten from rfl,
      addLane_append, Nat.zero_add]

/-- Helper: the state equation over a sequence of render_to calls: the
remainder position stays in [1, W] and pulls * W + remainder_pos advances by
the total length rendered. -/
theorem renderToSeq_state {α : Type} [Add α] (W : ℕ) (g : ℕ → ℕ → α) :
    ∀ (bufs : List (List α)) (st : SIMDVoiceState α), 0 < W → st.remainderPos ≤ W →
      (renderToSeq W g st bufs).2.remainderPos ≤ W ∧
      (1 ≤ st.remainderPos → 1 ≤ (renderToSeq W g st bufs).2.remainderPos) ∧
      (renderToSeq W g st bufs).2.pulls * W + (renderToSeq W g st bufs).2.remainderPos =
        st.pulls * W + st.remainderPos + (bufs.map List.length).sum := by
  intro bufs
  induction bufs with
  | nil =>
    intro st hW hpos
    exact ⟨hpos, fun h => h, by rfl⟩
  | cons b bs ih =>
    intro st hW hpos
    have hstep2 : (renderToSeq W g st (b :: bs)).2 =
        (renderToSeq W g (renderTo W g st b).2 bs).2 := rfl
    have hst := renderTo_state W g st b hW hpos
    have hrec := ih (renderTo W g st b).2 hW hst.1
    rw [hstep2]
    refine ⟨hrec.1, fun h => hrec.2.1 (hst.2.1 h), ?_⟩
    rw [hrec.2.2, show ((b :: bs).map List.length).sum = b.length + (bs.map List.length).sum
      from by simp]
    omega

/-- C5 (amended): over any sequence of render_to calls with buffer lengths
summing to N samples, started in a reachable state (1 ≤ remainder_pos ≤ W),
the generator is pulled exactly ⌈(N + remainder_pos_initial) / W⌉ - 1 times,
that is, (N + remainder_pos_initial - 1) / W times — one less than the claimed
⌈(N + remainder_pos_initial) / W⌉. -/
theorem renderToSeq_pull_count {α : Type} [Add α] (W : ℕ) (g : ℕ → ℕ → α)
    (st : SIMDVoiceState α) (bufs : List (List α)) (hW : 0 < W)
    (hpos1 : 1 ≤ st.remainderPos) (hpos : st.remainderPos ≤ W) :
    (renderToSeq W g st bufs).2.pulls =
      st.pulls + ((bufs.map List.length).sum + st.remainderPos - 1) / W := by
  obtain ⟨hle, hge, hD⟩ := renderToSeq_state W g bufs st hW hpos
  have hge1 := hge hpos1
  rcases Nat.lt_or_ge (renderToSeq W g st bufs).2.pulls st.pulls with hlt | hge2
  · exfalso
    have h3 : ((renderToSeq W g st bufs).2.pulls + 1) * W ≤ st.pulls * W :=
      Nat.mul_le_mul_right W hlt
    rw [Nat.succ_mul] at h3
    omega
  · obtain ⟨k, hk⟩ := Nat.exists_eq_add_of_le hge2
    have hmul : (st.pulls + k) * W = st.pulls * W + W * k := by ring
    rw [hk] at hD ⊢
    have hNp : (bufs.map List.length).sum + st.remainderPos - 1 =
        W * k + ((renderToSeq W g st bufs).2.remainderPos - 1) := by omega
    rw [hNp, Nat.mul_add_div hW, Nat.div_eq_of_lt (by omega), Nat.add_zero]

/-- Witness: the amended pull count applied to a width-4 voice in the fresh
state rendering buffers of lengths 3 and 5. -/
theorem renderToSeq_pull_count_witness :
    (renderToSeq 4 (fun _ _ => (0 : ℕ)) ⟨0, fun _ => 0, 4⟩ [[0, 0, 0], [0, 0, 0, 0, 0]]).2.pulls =
      0 + (([[0, 0, 0], [0, 0, 0, 0, 0]].map List.length).sum + 4 - 1) / 4 :=
  renderToSeq_pull_count 4 (fun _ _ => (0 : ℕ)) ⟨0, fun _ => 0, 4⟩
    [[0, 0, 0], [0, 0, 0, 0, 0]] (by decide) (by decide) (by decide)

/-- C5 (counterexample): a width-4 voice in the fresh state
(remainder_pos = 4) rendering a single 4-sample buffer pulls the generator
once, not ⌈(N + remainder_pos_initial) / W⌉ = ⌈(4 + 4) / 4⌉ = 2 times as the
claim states. -/
theorem renderToSeq_pull_count_counterexample :
    (renderToSeq 4 (fun _ _ => (0 : ℕ)) ⟨0, fun _ => 0, 4⟩ [[0, 0, 0, 0]]).2.pulls = 1 ∧
    (4 + 4 + (4 - 1)) / 4 = 2 := by
  constructor
  · rfl
  · rfl

/-- Helper: interleaving doubles the length. -/
theorem interleave_length : ∀ fs : List (ℚ × ℚ), (interleave fs).length = 2 * fs.length := by
  intro fs
  induction fs with
  | nil => rfl
  | cons p rest ih =>
    show (interleave rest).length + 1 + 1 = 2 * (rest.length + 1)
    omega

/-- Helper: interleave distributes over append. -/
theorem interleave_append : ∀ a b : List (ℚ × ℚ),
    interleave (a ++ b) = interleave a ++ interleave b := by
  intro a
  induction a with
  | nil => intro b; rfl
  | cons p rest ih =>
    intro b
    show p.1 :: p.2 :: interleave (rest ++ b) = p.1 :: p.2 :: interleave rest ++ interleave b
    rw [ih b]
    rfl

/-- Helper: taking 2k floats of an interleaved buffer is interleaving the
first k frames. -/
theorem interleave_take : ∀ (fs : List (ℚ × ℚ)) (k : ℕ),
    (interleave fs).take (2 * k) = interleave (fs.take k) := by
  intro fs
  induction fs with
  | nil => intro k; simp [interleave]
  | cons p rest ih =>
    intro k
    cases k with
    | zero => rfl
    | succ m =>
      show (p.1 :: p.2 :: interleave rest).take (2 * (m + 1)) = _
      rw [show 2 * (m + 1) = 2 * m + 1 + 1 from by omega, List.take_succ_cons,
        List.take_succ_cons, ih m]
      rfl

/-- Helper: dropping 2k floats of an interleaved buffer is interleaving the
frames past the first k. -/
theorem interleave_drop : ∀ (fs : List (ℚ × ℚ)) (k : ℕ),
    (interleave fs).drop (2 * k) = interleave (fs.drop k) := by
  intro fs
  induction fs with
  | nil => intro k; simp [interleave]
  | cons p rest ih =>
    intro k
    cases k with
    | zero => rfl
    | succ m =>
      show (p.1 :: p.2 :: interleave rest).drop (2 * (m + 1)) = _
      rw [show 2 * (m + 1) = 2 * m + 1 + 1 from by omega, List.drop_succ_cons,
        List.drop_succ_cons, ih m]
      rfl

/-- Helper: interleaving the paired-up frames of an even-length buffer gives
the buffer back. -/
theorem interleave_pairUp : ∀ l : List ℚ, l.length % 2 = 0 → interleave (pairUp l) = l
  | [], _ => rfl
  | [x], h => by simp at h
  | x :: y :: rest, h => by
    have hr : rest.length % 2 = 0 := by
      simp only [List.length_cons] at h
      omega
    show (x, y).1 :: (x, y).2 :: interleave (pairUp rest) = x :: y :: rest
    rw [interleave_pairUp rest hr]

/-- Helper: the stereo drain loop on an interleaved buffer succeeds and is
the frame-level drain with the paired remainder. -/
theorem stereoDrain_interleave (W : ℕ) (remL remR : ℕ → ℚ) :
    ∀ (fs : List (ℚ × ℚ)) (pos : ℕ),
      stereoDrain W remL remR pos (interleave fs) =
        some (interleave (simdDrain W (fun i => (remL i, remR i)) pos fs).1,
          (simdDrain W (fun i => (remL i, remR i)) pos fs).2.1,
          interleave (simdDrain W (fun i => (remL i, remR i)) pos fs).2.2) := by
  intro fs
  induction fs with
  | nil => intro pos; rfl
  | cons p rest ih =>
    intro pos
    have hstepS : stereoDrain W remL remR pos (interleave (p :: rest)) =
        (if pos < W then
          (match stereoDrain W remL remR (pos + 1) (interleave rest) with
           | none => none
           | some r => some ((p.1 + remL pos) :: (p.2 + remR pos) :: r.1, r.2))
         else some ([], pos, p.1 :: p.2 :: interleave rest)) := rfl
    have hstepM : simdDrain W (fun i => (remL i, remR i)) pos (p :: rest) =
        (if pos < W then
          ((p + (remL pos, remR pos)) ::
            (simdDrain W (fun i => (remL i, remR i)) (pos + 1) rest).1,
           (simdDrain W (fun i => (remL i, remR i)) (pos + 1) rest).2)
         else ([], pos, p :: rest)) := rfl
    by_cases hlt : pos < W
    · rw [hstepS, hstepM, if_pos hlt, if_pos hlt, ih (pos + 1)]
      show some ((p.1 + remL pos) :: (p.2 + remR pos) :: _, _) = _
      have hadd : (p + (remL pos, remR pos)) = (p.1 + remL pos, p.2 + remR pos) := by
        cases p; rfl
      rw [hadd]
      rfl
    · rw [hstepS, hstepM, if_neg hlt, if_neg hlt]
      rfl

/-- Helper: the interleaved chunk add is the frame-level lane add. -/
theorem stereoChunkAdd_interleave (lane : ℕ → ℚ × ℚ) :
    ∀ (fs : List (ℚ × ℚ)) (k : ℕ),
      stereoChunkAdd lane k (interleave fs) = interleave (addLane lane k fs) := by
  intro fs
  induction fs with
  | nil => intro k; rfl
  | cons p rest ih =>
    intro k
    show (p.1 + (lane k).1) :: (p.2 + (lane k).2) :: stereoChunkAdd lane (k + 1) (interleave rest) = _
    rw [ih (k + 1)]
    have hadd : (p + lane k) = (p.1 + (lane k).1, p.2 + (lane k).2) := by
      cases p; rfl
    show _ = interleave ((p + lane k) :: addLane lane (k + 1) rest)
    rw [hadd]
    rfl

/-- Helper: the stereo bulk phase on an interleaved buffer is the frame-level
bulk phase with the same fuel. -/
theorem stereoBulk_interleave (g : ℕ → ℕ → ℚ × ℚ) (W : ℕ) :
    ∀ (fuel pulls : ℕ) (fs : List (ℚ × ℚ)),
      stereoBulk g W fuel pulls (interleave fs) =
        (interleave (simdBulk g W fuel pulls fs).1,
         (simdBulk g W fuel pulls fs).2.1,
         interleave (simdBulk g W fuel pulls fs).2.2) := by
  intro fuel
  induction fuel with
  | zero => intro pulls fs; rfl
  | succ n ih =>
    intro pulls fs
    have hstepS : stereoBulk g W (n + 1) pulls (interleave fs) =
        (if 0 < W ∧ 2 * W ≤ (interleave fs).length then
          (stereoChunkAdd (g pulls) 0 ((interleave fs).take (2 * W)) ++
            (stereoBulk g W n (pulls + 1) ((interleave fs).drop (2 * W))).1,
           (stereoBulk g W n (pulls + 1) ((interleave fs).drop (2 * W))).2)
         else ([], pulls, interleave fs)) := rfl
    have hstepM : simdBulk g W (n + 1) pulls fs =
        (if 0 < W ∧ W ≤ fs.length then
          (addLane (g pulls) 0 (fs.take W) ++ (simdBulk g W n (pulls + 1) (fs.drop W)).1,
           (simdBulk g W n (pulls + 1) (fs.drop W)).2)
         else ([], pulls, fs)) := rfl
    have hguard : (0 < W ∧ 2 * W ≤ (interleave fs).length) ↔ (0 < W ∧ W ≤ fs.length) := by
      rw [interleave_length]
      omega
    by_cases hg : 0 < W ∧ W ≤ fs.length
    · rw [hstepS, hstepM, if_pos hg, if_pos (hguard.mpr hg), interleave_take,
        interleave_drop, stereoChunkAdd_interleave, ih (pulls + 1) (fs.drop W)]
      rw [← interleave_append]
    · rw [hstepS, hstepM, if_neg hg, if_neg (fun h => hg (hguard.mp h))]
      rfl

/-- Helper: the stereo tail drain loop on an interleaved buffer succeeds and
adds the lane frames, ending at the number of frames consumed. -/
theorem stereoTailLoop_interleave (lane : ℕ → ℚ × ℚ) :
    ∀ (fs : List (ℚ × ℚ)) (pos : ℕ),
      stereoTailLoop lane pos (interleave fs) =
        some (interleave (addLane lane pos fs), pos + fs.length) := by
  intro fs
  induction fs with
  | nil => intro pos; rfl
  | cons p rest ih =>
    intro pos
    show (match stereoTailLoop lane (pos + 1) (interleave rest) with
      | none => none
      | some r => some ((p.1 + (lane pos).1) :: (p.2 + (lane pos).2) :: r.1, r.2)) = _
    rw [ih (pos + 1)]
    have hadd : (p + lane pos) = (p.1 + (lane pos).1, p.2 + (lane pos).2) := by
      cases p; rfl
    show some ((p.1 + (lane pos).1) :: (p.2 + (lane pos).2) ::
        interleave (addLane lane (pos + 1) rest), pos + 1 + rest.length) = _
    rw [show interleave (addLane lane pos (p :: rest)) =
        (p + lane pos).1 :: (p + lane pos).2 :: interleave (addLane lane (pos + 1) rest)
      from rfl, hadd, show pos + (p :: rest).length = pos + 1 + rest.length from by
        rw [List.length_cons]; omega]

/-- Helper: the bulk result does not depend on the fuel once it covers the
buffer length. -/
theorem simdBulk_fuel_irrel {α : Type} [Add α] (g : ℕ → ℕ → α) (W : ℕ)
    (f1 f2 pulls : ℕ) (buf : List α) (h1 : buf.length ≤ f1) (h2 : buf.length ≤ f2) :
    simdBulk g W f1 pulls buf = simdBulk g W f2 pulls buf := by
  rw [simdBulk_eq g W f1 pulls buf h1, simdBulk_eq g W f2 pulls buf h2]

/-- Helper: the stereo tail phase on an interleaved buffer succeeds and is the
frame-level tail phase with the paired remainder. -/
theorem stereoTail_interleave (g : ℕ → ℕ → ℚ × ℚ) (pulls : ℕ)
    (remL remR : ℕ → ℚ) (pos : ℕ) (fs : List (ℚ × ℚ)) :
    ∃ sst2, stereoTail g pulls remL remR pos (interleave fs) =
        some (interleave (simdTail g pulls (fun i => (remL i, remR i)) pos fs).1, sst2) ∧
      sst2.toPair = (simdTail g pulls (fun i => (remL i, remR i)) pos fs).2 := by
  cases fs with
  | nil => exact ⟨⟨pulls, remL, remR, pos⟩, rfl, rfl⟩
  | cons p rest =>
    refine ⟨⟨pulls + 1, fun i => (g pulls i).1, fun i => (g pulls i).2,
      0 + (p :: rest).length⟩, ?_, ?_⟩
    · show (match stereoTailLoop (g pulls) 0 (interleave (p :: rest)) with
        | none => none
        | some r => some (r.1,
            (⟨pulls + 1, fun i => (g pulls i).1, fun i => (g pulls i).2, r.2⟩ :
              StereoVoiceState))) = _
      rw [stereoTailLoop_interleave (g pulls) (p :: rest) 0]
      rfl
    · show StereoVoiceState.toPair _ = _
      unfold StereoVoiceState.toPair
      dsimp only
      show (⟨pulls + 1, fun i => ((g pulls i).1, (g pulls i).2), 0 + (p :: rest).length⟩ :
          SIMDVoiceState (ℚ × ℚ)) = ⟨pulls + 1, g pulls, (p :: rest).length⟩
      rw [show (fun i => ((g pulls i).1, (g pulls i).2)) = g pulls from
          funext fun i => Prod.mk.eta,
        Nat.zero_add]

/-- Helper: stereo render_to on an interleaved frame list succeeds and matches
the frame-level render_to through the paired state view. -/
theorem stereoRenderTo_interleave (W : ℕ) (g : ℕ → ℕ → ℚ × ℚ)
    (sst : StereoVoiceState) (fs : List (ℚ × ℚ)) :
    ∃ sst2, stereoRenderTo W g sst (interleave fs) =
        some (interleave (renderTo W g sst.toPair fs).1, sst2) ∧
      sst2.toPair = (renderTo W g sst.toPair fs).2 := by
  obtain ⟨pulls, remL, remR, pos⟩ := sst
  obtain ⟨sst2, hT, hTp⟩ := stereoTail_interleave g
    (simdBulk g W (simdDrain W (fun i => (remL i, remR i)) pos fs).2.2.length pulls
      (simdDrain W (fun i => (remL i, remR i)) pos fs).2.2).2.1
    remL remR
    (simdDrain W (fun i => (remL i, remR i)) pos fs).2.1
    (simdBulk g W (simdDrain W (fun i => (remL i, remR i)) pos fs).2.2.length pulls
      (simdDrain W (fun i => (remL i, remR i)) pos fs).2.2).2.2
  refine ⟨sst2, ?_, hTp⟩
  show (match stereoDrain W remL remR pos (interleave fs) with
    | none => none
    | some d =>
      match stereoTail g (stereoBulk g W d.2.2.length pulls d.2.2).2.1 remL remR d.2.1
          (stereoBulk g W d.2.2.length pulls d.2.2).2.2 with
      | none => none
      | some t => some (d.1 ++ (stereoBulk g W d.2.2.length pulls d.2.2).1 ++ t.1, t.2)) = _
  rw [stereoDrain_interleave W remL remR fs pos]
  dsimp only
  rw [interleave_length, stereoBulk_interleave,
    simdBulk_fuel_irrel g W
      (2 * (simdDrain W (fun i => (remL i, remR i)) pos fs).2.2.length)
      ((simdDrain W (fun i => (remL i, remR i)) pos fs).2.2.length) pulls
      (simdDrain W (fun i => (remL i, remR i)) pos fs).2.2 (by omega) (le_refl _)]
  dsimp only
  rw [hT]
  dsimp only
  rw [← interleave_append, ← interleave_append]
  rfl

/-- Helper: a sequence of stereo render_to calls on interleaved frame lists
succeeds and matches the frame-level sequence through the paired state view. -/
theorem stereoRenderToSeq_interleave (W : ℕ) (g : ℕ → ℕ → ℚ × ℚ) :
    ∀ (fss : List (List (ℚ × ℚ))) (sst : StereoVoiceState),
      ∃ sst2, stereoRenderToSeq W g sst (fss.map interleave) =
          some ((renderToSeq W g sst.toPair fss).1.map interleave, sst2) ∧
        sst2.toPair = (renderToSeq W g sst.toPair fss).2 := by
  intro fss
  induction fss with
  | nil => intro sst; exact ⟨sst, rfl, rfl⟩
  | cons fs rest ih =>
    intro sst
    obtain ⟨s1, h1, h1p⟩ := stereoRenderTo_interleave W g sst fs
    obtain ⟨s2, h2, h2p⟩ := ih s1
    rw [h1p] at h2 h2p
    refine ⟨s2, ?_, h2p⟩
    show (match stereoRenderTo W g sst (interleave fs) with
      | none => none
      | some r =>
        match stereoRenderToSeq W g r.2 (rest.map interleave) with
        | none => none
        | some rs => some (r.1 :: rs.1, rs.2)) = _
    rw [h1]
    dsimp only
    rw [h2]
    rfl

/-- Helper: flattening interleaved frame lists is interleaving the flattened
frames. -/
theorem interleave_flatten : ∀ fss : List (List (ℚ × ℚ)),
    (fss.map interleave).flatten = interleave fss.flatten := by
  intro fss
  induction fss with
  | nil => rfl
  | cons fs rest ih =>
    show interleave fs ++ (rest.map interleave).flatten = interleave (fs ++ rest.flatten)
    rw [ih, interleave_append]

/-- C1: splitting a render into a sequence of render_to calls whose buffer
lengths sum to N frames adds exactly the same total output to the buffers as
a single render_to call of N frames, for every generator and every starting
state with remainder_pos at most W.  The first part covers SIMDMonoVoice (and
the frame view of the stereo voice) for arbitrary additive sample types; the
second covers SIMDStereoVoice on interleaved float buffers, whose lengths in
floats are twice the frame counts (even).  No sample is lost or duplicated
across the calls. -/
theorem render_to_carry_over :
    (∀ {α : Type} [inst : Add α] (W : ℕ) (g : ℕ → ℕ → α) (st : SIMDVoiceState α)
        (bufs : List (List α)), 0 < W → st.remainderPos ≤ W →
      (renderToSeq W g st bufs).1.flatten = (renderTo W g st bufs.flatten).1)
    ∧ (∀ (W : ℕ) (g : ℕ → ℕ → ℚ × ℚ) (sst : StereoVoiceState) (bufs : List (List ℚ)),
        0 < W → sst.remainderPos ≤ W → (∀ b ∈ bufs, b.length % 2 = 0) →
      ∃ p q, stereoRenderToSeq W g sst bufs = some p ∧
        stereoRenderTo W g sst bufs.flatten = some q ∧ p.1.flatten = q.1) := by
  constructor
  · intro α inst W g st bufs hW hpos
    rw [renderToSeq_fst W g bufs st hW hpos, renderTo_fst W g st bufs.flatten hW hpos]
  · intro W g sst bufs hW hpos heven
    have hb : (bufs.map pairUp).map interleave = bufs := by
      rw [List.map_map]
      have : ∀ b ∈ bufs, (interleave ∘ pairUp) b = b := fun b hbm =>
        interleave_pairUp b (heven b hbm)
      calc bufs.map (interleave ∘ pairUp) = bufs.map id := List.map_congr_left this
        _ = bufs := List.map_id bufs
    obtain ⟨s2, hseq, _⟩ := stereoRenderToSeq_interleave W g (bufs.map pairUp) sst
    rw [hb] at hseq
    have hflat : bufs.flatten = interleave (bufs.map pairUp).flatten := by
      rw [← interleave_flatten, hb]
    obtain ⟨s3, hone, _⟩ := stereoRenderTo_interleave W g sst (bufs.map pairUp).flatten
    rw [← hflat] at hone
    refine ⟨((renderToSeq W g sst.toPair (bufs.map pairUp)).1.map interleave, s2),
      (interleave (renderTo W g sst.toPair (bufs.map pairUp).flatten).1, s3),
      hseq, hone, ?_⟩
    show ((renderToSeq W g sst.toPair (bufs.map pairUp)).1.map interleave).flatten = _
    rw [interleave_flatten,
      renderToSeq_fst W g (bufs.map pairUp) sst.toPair hW hpos,
      renderTo_fst W g sst.toPair (bufs.map pairUp).flatten hW hpos]

/-- Witness: the carry-over equality at lane width 2, a zero generator, the
fresh mono state over ℤ split as 3 + 5 samples, and the fresh stereo state
split as one frame plus two frames of interleaved floats. -/
theorem render_to_carry_over_witness :
    ((renderToSeq 2 (fun _ _ => (0 : ℤ)) ⟨0, fun _ => 0, 2⟩
        [[1, 2, 3], [4, 5, 6, 7, 8]]).1.flatten =
      (renderTo 2 (fun _ _ => (0 : ℤ)) ⟨0, fun _ => 0, 2⟩
        [[1, 2, 3], [4, 5, 6, 7, 8]].flatten).1)
    ∧ (∃ p q, stereoRenderToSeq 2 (fun _ _ => (0, 0)) ⟨0, fun _ => 0, fun _ => 0, 2⟩
          [[1, 2], [3, 4, 5, 6]] = some p ∧
        stereoRenderTo 2 (fun _ _ => (0, 0)) ⟨0, fun _ => 0, fun _ => 0, 2⟩
          [[1, 2], [3, 4, 5, 6]].flatten = some q ∧ p.1.flatten = q.1) :=
  ⟨render_to_carry_over.1 2 (fun _ _ => (0 : ℤ)) ⟨0, fun _ => 0, 2⟩
      [[1, 2, 3], [4, 5, 6, 7, 8]] (by decide) (by decide),
   render_to_carry_over.2 2 (fun _ _ => (0, 0)) ⟨0, fun _ => 0, fun _ => 0, 2⟩
      [[1, 2], [3, 4, 5, 6]] (by decide) (by decide) (by decide)⟩

/-- C10 (amended): SIMDStereoVoice::render_to stays within the bounds of its
output slice for every even buffer length: the embedding that returns none on
an out-of-bounds access returns some.  For odd lengths the claim fails; see
the counterexample. -/
theorem stereo_render_to_in_bounds (W : ℕ) (g : ℕ → ℕ → ℚ × ℚ)
    (sst : StereoVoiceState) (buf : List ℚ) (heven : buf.length % 2 = 0) :
    (stereoRenderTo W g sst buf).isSome = true := by
  obtain ⟨s2, h, _⟩ := stereoRenderTo_interleave W g sst (pairUp buf)
  rw [interleave_pairUp buf heven] at h
  rw [h]
  rfl

/-- Witness: in-bounds stereo rendering of a four-float buffer at width 4. -/
theorem stereo_render_to_in_bounds_witness :
    (stereoRenderTo 4 (fun _ _ => (0, 0)) ⟨0, fun _ => 0, fun _ => 0, 4⟩
      [1, 2, 3, 4]).isSome = true :=
  stereo_render_to_in_bounds 4 (fun _ _ => (0, 0)) ⟨0, fun _ => 0, fun _ => 0, 4⟩
    [1, 2, 3, 4] (by decide)

/-- C10 (counterexample): on a buffer of odd length 1 the stereo tail loop
reads buffer[buf_idx + 1] with buf_idx + 1 = 1 = buffer.len(), an
out-of-bounds access: the embedding returns none. -/
theorem stereo_render_to_oob_counterexample :
    stereoRenderTo 4 (fun _ _ => (0, 0)) ⟨0, fun _ => 0, fun _ => 0, 4⟩ [1] = none := by
  rfl

/-- Helper: the selective render loop of render_with_priority with the single
index i0 renders exactly the voice at position i0 (offset by the enumeration
start) and nothing else. -/
theorem renderFold_single (i0 : ℕ) :
    ∀ (vs : List KVoice) (k : ℕ) (out : List ℚ),
      (List.enumFrom k vs).foldl
          (fun acc p => if [i0].contains p.1 then p.2.render acc else acc) out =
        match vs.get? (i0 - k) with
        | some v => if k ≤ i0 then v.render out else out
        | none => out := by
  intro vs
  induction vs with
  | nil => intro k out; rfl
  | cons v rest ih =>
    intro k out
    show (List.enumFrom (k + 1) rest).foldl _
        (if [i0].contains k then v.render out else out) = _
    by_cases hk : k = i0
    · have hc : [i0].contains k = true := by simp [hk]
      rw [hc, if_pos rfl, ih (k + 1) (v.render out)]
      have h1 : i0 - (k + 1) = 0 := by omega
      rw [h1, show i0 - k = 0 from by omega,
        show (v :: rest).get? 0 = some v from rfl]
      dsimp only
      rw [if_pos (by omega)]
      cases hrest : rest.get? 0 with
      | none => rfl
      | some r =>
        dsimp only
        rw [if_neg (by omega)]
    · have hc : [i0].contains k = false := by simp [hk]
      rw [hc, if_neg (by simp)]
      rw [ih (k + 1) out]
      rcases Nat.lt_or_ge i0 k with hik | hik
      · rw [show i0 - (k + 1) = 0 from by omega, show i0 - k = 0 from by omega,
          show (v :: rest).get? 0 = some v from rfl]
        dsimp only
        rw [if_neg (by omega)]
        cases hrest : rest.get? 0 with
        | none => rfl
        | some r =>
          dsimp only
          rw [if_neg (by omega)]
      · have hik2 : k < i0 := by omega
        rw [show i0 - k = (i0 - (k + 1)) + 1 from by omega,
          show (v :: rest).get? (i0 - (k + 1) + 1) = rest.get? (i0 - (k + 1)) from rfl]
        cases hrest : rest.get? (i0 - (k + 1)) with
        | none => rfl
        | some r =>
          dsimp only
          rw [if_pos (by omega), if_pos (by omega)]

/-- Helper: the head of the descending stable sort used by
render_with_priority bounds the amplitude of every collected entry. -/
theorem mergeSort_head_max (l : List (ℕ × ℚ)) (hne : l ≠ []) :
    ∃ h t, l.mergeSort (fun a b => decide (b.2 ≤ a.2)) = h :: t ∧
      h ∈ l ∧ ∀ x ∈ l, x.2 ≤ h.2 := by
  have hperm := List.mergeSort_perm l (fun a b => decide (b.2 ≤ a.2))
  have hsorted := List.sorted_mergeSort
    (fun a b c hab hbc => by
      have hab2 : b.2 ≤ a.2 := of_decide_eq_true hab
      have hbc2 : c.2 ≤ b.2 := of_decide_eq_true hbc
      exact decide_eq_true (le_trans hbc2 hab2))
    (fun a b => by
      rcases le_total b.2 a.2 with h | h
      · simp [h]
      · simp [h])
    l
  cases hms : l.mergeSort (fun a b => decide (b.2 ≤ a.2)) with
  | nil =>
    exfalso
    rw [hms] at hperm
    exact hne hperm.symm.eq_nil
  | cons h t =>
    rw [hms] at hperm hsorted
    have hpc := List.pairwise_cons.mp hsorted
    refine ⟨h, t, rfl, hperm.mem_iff.mp (List.mem_cons_self h t), ?_⟩
    intro x hx
    rcases List.mem_cons.mp (hperm.mem_iff.mpr hx) with hx1 | hx2
    · rw [hx1]
    · have hb := hpc.1 x hx2
      exact of_decide_eq_true hb

/-- C8 (amended): with max_voices_per_frame = 1 and more than one buffered
voice, KeyData::render_to renders exactly one voice — one whose amplitude is
maximal among all buffered voices — provided at least one voice is above the
0.001 silence threshold.  (When every voice is at or below the threshold, no
voice renders at all; see the counterexample.) -/
theorem render_to_priority_single (kd : KeyData) (out : List ℚ)
    (hcap : kd.max_voices_per_frame = 1)
    (hcount : 2 ≤ kd.voices.length)
    (hamp : ∃ v ∈ kd.voices, SILENCE_THRESHOLD < v.amplitude) :
    ∃ i v, kd.voices.get? i = some v ∧ SILENCE_THRESHOLD < v.amplitude ∧
      (∀ w ∈ kd.voices, w.amplitude ≤ v.amplitude) ∧
      (kd.render_to out).2 = v.render out := by
  have hlen0 : ¬ kd.voices.length = 0 := by omega
  have hrt : (kd.render_to out).2 = kd.render_with_priority out := by
    have hstep : kd.render_to out =
        (if kd.voices.length = 0 then (kd.update_voice_counter 0, out)
         else
          ({ kd with voices := kd.voices.filter (fun (v : KVoice) => ¬v.ended = true)
            }.update_voice_counter
              (kd.voices.filter (fun (v : KVoice) => ¬v.ended = true)).length,
           if kd.voices.length ≤ kd.max_voices_per_frame then
             kd.voices.foldl (fun acc (w : KVoice) => w.render acc) out
           else kd.render_with_priority out)) := rfl
    rw [hstep, if_neg hlen0, hcap, if_neg (by omega)]
  have hmemdata : ∀ w ∈ kd.voices, SILENCE_THRESHOLD < w.amplitude →
      ∃ j, kd.voices.get? j = some w ∧
        (j, w.amplitude) ∈ (kd.voices.enum.map (fun p => (p.1, p.2.amplitude))).filter
          (fun p => SILENCE_THRESHOLD < p.2) := by
    intro w hw hwa
    obtain ⟨j, hj⟩ := List.get?_of_mem hw
    refine ⟨j, hj, ?_⟩
    rw [List.mem_filter]
    constructor
    · refine List.mem_map.mpr ⟨(j, w), ?_, rfl⟩
      rw [List.mem_enum_iff_get?]
      exact hj
    · simpa using hwa
  have hlne : (kd.voices.enum.map (fun p => (p.1, p.2.amplitude))).filter
      (fun p => SILENCE_THRESHOLD < p.2) ≠ [] := by
    obtain ⟨v, hvmem, hvamp⟩ := hamp
    obtain ⟨j, _, hjmem⟩ := hmemdata v hvmem hvamp
    exact List.ne_nil_of_mem hjmem
  obtain ⟨h, t, hms, hmem, hmax⟩ := mergeSort_head_max _ hlne
  have hmem2 := List.mem_filter.mp hmem
  obtain ⟨p, hp_enum, hp_eq⟩ := List.mem_map.mp hmem2.1
  have hp1 : p.1 = h.1 := congrArg Prod.fst hp_eq
  have hp2 : p.2.amplitude = h.2 := congrArg Prod.snd hp_eq
  have hget : kd.voices.get? h.1 = some p.2 := by
    rw [← hp1]
    exact List.mem_enum_iff_get?.mp hp_enum
  have hth : SILENCE_THRESHOLD < h.2 := by simpa using hmem2.2
  have hpri : kd.render_with_priority out = p.2.render out := by
    have hmin : min ((kd.voices.enum.map (fun p => (p.1, p.2.amplitude))).filter
        (fun p => SILENCE_THRESHOLD < p.2)).length kd.max_voices_per_frame = 1 := by
      have hpos := List.length_pos.mpr hlne
      rw [hcap]
      omega
    have hstep2 : kd.render_with_priority out =
        (if (kd.voices.enum.map (fun p => (p.1, p.2.amplitude))).filter
            (fun p => SILENCE_THRESHOLD < p.2) = [] then out
         else
          kd.voices.enum.foldl
            (fun acc q =>
              if ((((kd.voices.enum.map (fun p => (p.1, p.2.amplitude))).filter
                  (fun p => SILENCE_THRESHOLD < p.2)).mergeSort
                    (fun a b => decide (b.2 ≤ a.2))).take
                  (min ((kd.voices.enum.map (fun p => (p.1, p.2.amplitude))).filter
                    (fun p => SILENCE_THRESHOLD < p.2)).length
                    kd.max_voices_per_frame)).map (fun p => p.1) |>.contains q.1 then
                q.2.render acc
              else acc) out) := rfl
    rw [hstep2, if_neg hlne, hmin, hms,
      show (h :: t).take 1 = [h] from rfl,
      show ([h].map (fun p => p.1)) = [h.1] from rfl]
    show (List.enumFrom 0 kd.voices).foldl
        (fun acc q => if [h.1].contains q.1 then q.2.render acc else acc) out = _
    rw [renderFold_single h.1 kd.voices 0 out, Nat.sub_zero]
    rw [show kd.voices.get? h.1 = some p.2 from hget]
    dsimp only
    rw [if_pos (by omega)]
  refine ⟨h.1, p.2, hget, ?_, ?_, by rw [hrt, hpri]⟩
  · rw [hp2]
    exact hth
  · intro w hw
    rw [hp2]
    by_cases hwa : SILENCE_THRESHOLD < w.amplitude
    · obtain ⟨j, _, hjmem⟩ := hmemdata w hw hwa
      have := hmax (j, w.amplitude) hjmem
      simpa using this
    · push_neg at hwa
      exact le_of_lt (lt_of_le_of_lt hwa hth)

/-- Witness: the amended priority rendering on two voices of amplitudes 1 and
0 with max_voices_per_frame = 1. -/
theorem render_to_priority_single_witness :
    ∃ i v, (⟨[⟨1, fun l => l, false⟩, ⟨0, fun l => l, false⟩], 0, 0, 1⟩ :
        KeyData).voices.get? i = some v ∧
      SILENCE_THRESHOLD < v.amplitude ∧
      (∀ w ∈ (⟨[⟨1, fun l => l, false⟩, ⟨0, fun l => l, false⟩], 0, 0, 1⟩ :
        KeyData).voices, w.amplitude ≤ v.amplitude) ∧
      ((⟨[⟨1, fun l => l, false⟩, ⟨0, fun l => l, false⟩], 0, 0, 1⟩ :
        KeyData).render_to [0]).2 = v.render [0] :=
  render_to_priority_single
    ⟨[⟨1, fun l => l, false⟩, ⟨0, fun l => l, false⟩], 0, 0, 1⟩ [0] rfl
    (by decide)
    ⟨⟨1, fun l => l, false⟩, List.mem_cons_self _ _, by norm_num [SILENCE_THRESHOLD]⟩

/-- C8 (counterexample): with max_voices_per_frame = 1 and two buffered
voices both of amplitude 0 (at or below the silence threshold), render_to
renders no voice at all: the output buffer [0] comes back unchanged even
though each voice would have written [1] or [2], so "exactly one voice
renders per tick" fails. -/
theorem render_to_priority_counterexample :
    ((⟨[⟨0, fun _ => [1], false⟩, ⟨0, fun _ => [2], false⟩], 0, 0, 1⟩ :
        KeyData).render_to [0]).2 = [0] ∧
    ∀ v ∈ (⟨[⟨0, fun _ => [1], false⟩, ⟨0, fun _ => [2], false⟩], 0, 0, 1⟩ :
        KeyData).voices, v.render [0] ≠ [0] := by
  constructor
  · have hθ : ¬ (SILENCE_THRESHOLD < (0 : ℚ)) := by norm_num [SILENCE_THRESHOLD]
    have hfil : (((⟨[⟨0, fun _ => [1], false⟩, ⟨0, fun _ => [2], false⟩],
          0, 0, 1⟩ : KeyData).voices.enum.map
          (fun p => (p.1, p.2.amplitude))).filter
          (fun p => SILENCE_THRESHOLD < p.2)) = [] := by
      show ([((0 : ℕ), (0 : ℚ)), (1, 0)].filter (fun p => SILENCE_THRESHOLD < p.2)) = []
      simp [List.filter_cons, hθ]
    have hrt : ((⟨[⟨0, fun _ => [1], false⟩, ⟨0, fun _ => [2], false⟩], 0, 0, 1⟩ :
        KeyData).render_to [0]).2 =
        (⟨[⟨0, fun _ => [1], false⟩, ⟨0, fun _ => [2], false⟩], 0, 0, 1⟩ :
        KeyData).render_with_priority [0] := rfl
    rw [hrt]
    simp only [KeyData.render_with_priority]
    rw [if_pos hfil]
  · intro v hv
    rcases List.mem_cons.mp hv with h1 | hv2
    · rw [h1]
      simp
    · rcases List.mem_cons.mp hv2 with h2 | hv3
      · rw [h2]
        simp
      · exact absurd hv3 (List.not_mem_nil v)
